import Mathlib

/-!
Verification of the badge-block engine, badge-line parser and version
classifier of the `bdg` repository (`src/readme.rs`, `src/readme_badges.rs`,
`src/readme_remove.rs`, `src/version.rs`).

Rust strings are embedded as `List Char`; byte offsets of the source become
character offsets (all relevant delimiters are ASCII, so the extracted
substrings coincide).  Fallible Rust functions returning `anyhow::Result`
are embedded as `Except (List Char) _` carrying the error message.
-/

/-- A Rust `String` / `&str`, embedded as a list of characters. -/
abbrev Str := List Char

/-- Coerce a Lean string literal to the embedding type. -/
def str (s : String) : Str := s.toList

/-- `<!-- bdg:begin -->` (constant `BDG_BEGIN`, src/readme.rs). -/
def bdg_begin : Str := str "<!-- bdg:begin -->"

/-- `<!-- bdg:end -->` (constant `BDG_END`, src/readme.rs). -/
def bdg_end : Str := str "<!-- bdg:end -->"

/-- The CRLF separator `"\r\n"`. -/
def crlf : Str := ['\r', '\n']

/-- The LF separator `"\n"`. -/
def lf : Str := ['\n']

/-- Rust `str::starts_with` on string patterns: is `p` a prefix of `s`? -/
def isPreOf : Str → Str → Bool
  | [], _ => true
  | _ :: _, [] => false
  | a :: p, b :: s => if a = b then isPreOf p s else false

/-- Rust `str::ends_with` on string patterns: is `p` a suffix of `s`? -/
def endsWithSub (p s : Str) : Bool := isPreOf p.reverse s.reverse

/-- Index (in characters) of the first occurrence of `pat` in `s`
(Rust `str::find` with a string pattern). -/
def findSub (pat : Str) : Str → Option Nat
  | [] => if pat = [] then some 0 else none
  | c :: rest =>
    if isPreOf pat (c :: rest) then some 0
    else (findSub pat rest).map (· + 1)

/-- Rust `str::contains` with a string pattern. -/
def containsSub (pat s : Str) : Bool := (findSub pat s).isSome

/-- Rust `str::contains` with a char pattern. -/
def containsChar (c : Char) (s : Str) : Bool := s.contains c

/-- Rust `str::trim_start` (drop leading whitespace). -/
def trimStart (s : Str) : Str := s.dropWhile Char.isWhitespace

/-- Rust `str::trim` (drop leading and trailing whitespace). -/
def trimChars (s : Str) : Str :=
  ((s.dropWhile Char.isWhitespace).reverse.dropWhile Char.isWhitespace).reverse

/-- Rust `str::split` with a char separator (keeps empty segments,
always returns at least one segment). -/
def splitChar (sep : Char) : Str → List Str
  | [] => [[]]
  | c :: rest =>
    if c = sep then [] :: splitChar sep rest
    else
      match splitChar sep rest with
      | h :: t => (c :: h) :: t
      | [] => [[c]]

/-- Rust `str::split("\r\n")`: split on the two-character CRLF separator,
scanning left to right, non-overlapping. -/
def splitCRLF : Str → List Str
  | [] => [[]]
  | '\r' :: '\n' :: rest => [] :: splitCRLF rest
  | c :: rest =>
    match splitCRLF rest with
    | h :: t => (c :: h) :: t
    | [] => [[c]]

/-- Rust `Vec::join(sep)`: interleave `sep` between the elements. -/
def joinSep (sep : Str) : List Str → Str
  | [] => []
  | [l] => l
  | l :: rest => l ++ sep ++ joinSep sep rest

/-- `detect_newline` (src/readme.rs): CRLF if any `\r\n` occurs, else LF,
together with whether the content ends with that newline. -/
def detect_newline (content : Str) : Str × Bool :=
  if containsSub crlf content then (crlf, endsWithSub crlf content)
  else (lf, endsWithSub lf content)

/-- `split_lines` (src/readme.rs): empty content gives no lines; otherwise
split on the detected newline. -/
def split_lines (content : Str) (newline : Str) : List Str :=
  if content = [] then []
  else if newline = crlf then splitCRLF content
  else splitChar '\n' content

/-- `join_lines` (src/readme.rs): join with the newline and, when the
trailing flag is set, append one more newline. -/
def join_lines (lines : List Str) (newline : Str) (trailing : Bool) : Str :=
  joinSep newline lines ++ (if trailing then newline else [])

/-- `is_code_fence` (src/readme.rs and src/readme_remove.rs): the
left-trimmed line starts with three backticks. -/
def is_code_fence (line : Str) : Bool := isPreOf (str "```") (trimStart line)

/-- Loop body of `collect_marker_indices` (src/readme.rs): walk the lines
with the current index and fence state, recording indices of sentinel
lines seen while outside a fence.  A fence line toggles the state and is
itself never a sentinel candidate. -/
def collectGo : List Str → Nat → Bool → List Nat × List Nat
  | [], _, _ => ([], [])
  | l :: rest, idx, fence =>
    if is_code_fence l then collectGo rest (idx + 1) (!fence)
    else if fence then collectGo rest (idx + 1) fence
    else
      let r := collectGo rest (idx + 1) fence
      ((if l = bdg_begin then idx :: r.1 else r.1),
       (if l = bdg_end then idx :: r.2 else r.2))

/-- `collect_marker_indices` (src/readme.rs). -/
def collect_marker_indices (lines : List Str) : List Nat × List Nat :=
  collectGo lines 0 false

/-- Error message `marker block missing or duplicated`. -/
def errMissing : Str := str "marker block missing or duplicated"

/-- Error message `invalid marker block`. -/
def errInvalid : Str := str "invalid marker block"

/-- `rewrite_marker_block` (src/readme.rs): replace the content strictly
between the unique begin/end sentinels by the badge lines. -/
def rewrite_marker_block (content : Str) (badges : List Str) :
    Except Str Str :=
  let newline := (detect_newline content).1
  let trailing := (detect_newline content).2
  let lines := split_lines content newline
  match collect_marker_indices lines with
  | ([b], [e]) =>
    if b ≥ e then .error errInvalid
    else
      .ok (join_lines (lines.take (b + 1) ++ badges ++ lines.drop e)
        newline trailing)
  | _ => .error errMissing

/-- `extract_managed_block` (src/readme.rs): lenient extraction used for
display; returns the non-blank lines strictly between the sentinels, or
`[]` when the block is missing, duplicated or mis-ordered. -/
def extract_managed_block (content : Str) : List Str :=
  let newline := (detect_newline content).1
  let lines := split_lines content newline
  match collect_marker_indices lines with
  | ([b], [e]) =>
    if b ≥ e then []
    else ((lines.drop (b + 1)).take (e - (b + 1))).filter
      (fun l => ¬ (trimChars l = []))
  | _ => []

/-- `extract_marker_block_lines` (src/readme.rs): strict extraction of all
lines strictly between the sentinels (blank lines kept). -/
def extract_marker_block_lines (content : Str) : Except Str (List Str) :=
  let newline := (detect_newline content).1
  let lines := split_lines content newline
  match collect_marker_indices lines with
  | ([b], [e]) =>
    if b ≥ e then .error errInvalid
    else .ok ((lines.drop (b + 1)).take (e - (b + 1)))
  | _ => .error errMissing

/-- `rewrite_marker_block_lines` (src/readme.rs): like
`rewrite_marker_block` but with already-filtered content lines. -/
def rewrite_marker_block_lines (content : Str) (newLines : List Str) :
    Except Str Str :=
  let newline := (detect_newline content).1
  let trailing := (detect_newline content).2
  let lines := split_lines content newline
  match collect_marker_indices lines with
  | ([b], [e]) =>
    if b ≥ e then .error errInvalid
    else
      .ok (join_lines (lines.take (b + 1) ++ newLines ++ lines.drop e)
        newline trailing)
  | _ => .error errMissing

/-- `remove_marker_block` (src/readme.rs): delete the sentinels and
everything between them. -/
def remove_marker_block (content : Str) : Except Str Str :=
  let newline := (detect_newline content).1
  let trailing := (detect_newline content).2
  let lines := split_lines content newline
  match collect_marker_indices lines with
  | ([b], [e]) =>
    if b ≥ e then .error errInvalid
    else
      .ok (join_lines (lines.take b ++ lines.drop (e + 1)) newline trailing)
  | _ => .error errMissing

/-- `marker_count` (src/readme.rs): number of begin sentinels outside
fences. -/
def marker_count (content : Str) : Nat :=
  let newline := (detect_newline content).1
  let lines := split_lines content newline
  (collect_marker_indices lines).1.length

/-- Heading-scan loop of `ensure_marker_block` (src/readme.rs): find the
index of the first line, outside fences, that starts with `"# "`.  Fence
lines toggle the state and are skipped. -/
def findHeadingIdx : List Str → Bool → Nat → Option Nat
  | [], _, _ => none
  | l :: rest, fence, idx =>
    if is_code_fence l then findHeadingIdx rest (!fence) (idx + 1)
    else if fence then findHeadingIdx rest fence (idx + 1)
    else if isPreOf (str "# ") l then some idx
    else findHeadingIdx rest fence (idx + 1)

/-- Line-list edit performed by `ensure_marker_block` when it inserts a
fresh block: after the first non-fenced level-1 heading, or at the top. -/
def ensureInsertLines (lines : List Str) : List Str :=
  match findHeadingIdx lines false 0 with
  | some i => lines.take (i + 1) ++ [bdg_begin, bdg_end] ++ lines.drop (i + 1)
  | none => bdg_begin :: bdg_end :: lines

/-- `ensure_marker_block` (src/readme.rs).  The source reads the file with
`fs::read_to_string(..).unwrap_or_default()`; here the content string is
passed directly.  If exactly one begin and one end sentinel exist outside
fences the content is returned unchanged; otherwise a fresh empty block is
inserted.  Every path returns `Ok`. -/
def ensure_marker_block (content : Str) : Except Str Str :=
  let newline := (detect_newline content).1
  let trailing := (detect_newline content).2
  let lines := split_lines content newline
  if (collect_marker_indices lines).1.length = 1 ∧
      (collect_marker_indices lines).2.length = 1 then .ok content
  else .ok (join_lines (ensureInsertLines lines) newline trailing)

/-- Lowercase base-16 rendering of a natural number (Rust `format!("{:x}")`). -/
def toHex (n : Nat) : Str := Nat.toDigits 16 n

/-- 64-bit FNV-1a over the character codes of the line, rendered as
lowercase hex.  Models `hash_line` (src/readme_badges.rs and
src/readme_remove.rs), which feeds the line through the standard library
`DefaultHasher` (SipHash-1-3 with fixed zero keys).  Every property stated
about it depends only on the hash being one fixed deterministic function
of the exact raw line, not on particular hash values, so the hash core is
modelled by FNV-1a instead of SipHash. -/
def hash_line (line : Str) : Str :=
  toHex (line.foldl
    (fun h c => ((h ^^^ c.toNat) * 1099511628211) % (2 ^ 64))
    14695981039346656037)

/-- `is_http_url` (src/readme_badges.rs). -/
def is_http_url (url : Str) : Bool :=
  isPreOf (str "http://") url || isPreOf (str "https://") url

/-- `parse_linked_image` (src/readme_badges.rs): recognize
`[![Label](ImageURL)](LinkURL)` and return (label, image, link), the two
URLs trimmed. -/
def parse_linked_image (line : Str) : Option (Str × Str × Str) :=
  let trimmed := trimChars line
  if ¬ (isPreOf (str "[![") trimmed) ∨ ¬ (endsWithSub (str ")") trimmed) then
    none
  else
    match findSub (str "[![") trimmed with
    | none => none
    | some i =>
      let start_label := i + 3
      match findSub (str "](") (trimmed.drop start_label) with
      | none => none
      | some j =>
        let end_label := j + start_label
        let label := (trimmed.take end_label).drop start_label
        let start_image := end_label + 2
        match findSub (str ")]") (trimmed.drop start_image) with
        | none => none
        | some k =>
          let end_image := k + start_image
          let image := (trimmed.take end_image).drop start_image
          match findSub (str "(") (trimmed.drop (end_image + 2)) with
          | none => none
          | some m =>
            let start_link := m + end_image + 3
            match findSub (str ")") (trimmed.drop start_link) with
            | none => none
            | some n =>
              let end_link := n + start_link
              let link := (trimmed.take end_link).drop start_link
              if image = [] then none
              else some (label, trimChars image, trimChars link)

/-- `parse_image` (src/readme_badges.rs): recognize `![Label](ImageURL)`
and return (label, image), the image trimmed. -/
def parse_image (line : Str) : Option (Str × Str) :=
  let trimmed := trimChars line
  if ¬ (isPreOf (str "![") trimmed) ∨ ¬ (endsWithSub (str ")") trimmed) then
    none
  else
    let start_label := 2
    match findSub (str "](") (trimmed.drop start_label) with
    | none => none
    | some j =>
      let end_label := j + start_label
      let label := (trimmed.take end_label).drop start_label
      let start_image := end_label + 2
      match findSub (str ")") (trimmed.drop start_image) with
      | none => none
      | some k =>
        let end_image := k + start_image
        let image := (trimmed.take end_image).drop start_image
        if image = [] then none
        else some (label, trimChars image)

/-- Structured view of the `serde_json` metadata objects that
`infer_kind` attaches to a badge. -/
inductive BadgeMeta where
  | workflowFile (file : Str)
  | package (pkg : Str)
  | crateName (c : Str)
  | codecov (owner repo : Str)
  | docsLabel (label message : Str)
deriving Repr, DecidableEq

/-- The text after the first occurrence of `pat`, up to the next
occurrence of `pat` (or the end): Rust `s.split(pat).nth(1)`.  The
iterator version scans left to right; its second item is exactly the text
strictly between the first occurrence and the following one. -/
def splitNth1 (pat : Str) (s : Str) : Option Str :=
  match findSub pat s with
  | none => none
  | some i =>
    let rest := s.drop (i + pat.length)
    match findSub pat rest with
    | none => some rest
    | some j => some (rest.take j)

/-- Rust `s.split(sep).next()` with a char separator: the text before the
first occurrence of `sep` (never empty-handed). -/
def splitFirst (sep : Char) (s : Str) : Str :=
  s.takeWhile (fun c => ¬ (c = sep))

/-- Rust `str::trim_end_matches(".svg")`: strip every trailing repetition
of `.svg`. -/
def trimEndSvgRev : Str → Str
  | 'g' :: 'v' :: 's' :: '.' :: rest => trimEndSvgRev rest
  | s => s

/-- Rust `str::trim_end_matches(".svg")` (via the reversed string). -/
def trimEndSvg (s : Str) : Str := (trimEndSvgRev s.reverse).reverse

/-- `extract_after_prefix` (src/readme_badges.rs): the text after `pre`,
cut at the first `?`, with trailing `.svg` stripped; `none` when empty. -/
def extract_after_pre (image pre : Str) : Option Str :=
  match findSub pre image with
  | none => none
  | some pos =>
    let remainder := image.drop (pos + pre.length)
    let before_query := splitFirst '?' remainder
    let trimmed := trimEndSvg before_query
    if trimmed = [] then none else some trimmed

/-- `extract_codecov_repo` (src/readme_badges.rs). -/
def extract_codecov_repo (image : Str) : Option (Str × Str) :=
  match findSub (str "img.shields.io/codecov/c/github/") image with
  | none => none
  | some pos =>
    let remainder := image.drop (pos + (str "img.shields.io/codecov/c/github/").length)
    let before_query := splitFirst '?' remainder
    match splitChar '/' before_query with
    | owner :: repo :: _ =>
      let repo := trimEndSvg repo
      if owner = [] ∨ repo = [] then none else some (owner, repo)
    | [owner] =>
      -- `parts.next()` fails for the repo component
      let _ := owner
      none
    | [] => none

/-- `extract_custom_badge` (src/readme_badges.rs). -/
def extract_custom_badge (image : Str) : Option (Str × Str) :=
  match findSub (str "img.shields.io/badge/") image with
  | none => none
  | some pos =>
    let remainder := image.drop (pos + (str "img.shields.io/badge/").length)
    let before_query := splitFirst '?' remainder
    match splitChar '-' before_query with
    | label :: rest =>
      let message := match rest with
        | m :: _ => m
        | [] => []
      if label = [] then none else some (label, message)
    | [] => none

/-- Rust `str::eq_ignore_ascii_case`. -/
def eqIgnoreAsciiCase (a b : Str) : Bool :=
  a.map Char.toLower = b.map Char.toLower

/-- `infer_kind` (src/readme_badges.rs): classify the image URL, returning
(kind, id, meta).  Checked in source order; any non-absolute URL is
`unknown` with a hash id of the raw line. -/
def infer_kind (image : Str) (raw : Str) : Str × Str × Option BadgeMeta :=
  let image_trimmed := trimChars image
  if ¬ is_http_url image_trimmed then
    (str "unknown", str "unknown:" ++ hash_line raw, none)
  else if containsSub (str "/actions/workflows/") image_trimmed ∧
      containsSub (str "/badge.svg") image_trimmed then
    match (splitNth1 (str "/actions/workflows/") image_trimmed).map
        (splitFirst '/') with
    | some file =>
      (str "github_actions", str "ci:" ++ file, some (.workflowFile file))
    | none => (str "github_actions", str "unknown:" ++ hash_line raw, none)
  else
    match extract_after_pre image_trimmed (str "img.shields.io/npm/v/") with
    | some pkg => (str "npm_version", str "npm:" ++ pkg, some (.package pkg))
    | none =>
    match (extract_after_pre image_trimmed (str "img.shields.io/npm/dw/")).orElse
        (fun _ => (extract_after_pre image_trimmed (str "img.shields.io/npm/dm/")).orElse
          (fun _ => extract_after_pre image_trimmed (str "img.shields.io/npm/dt/"))) with
    | some pkg =>
      (str "npm_downloads", str "npm_downloads:" ++ pkg, some (.package pkg))
    | none =>
    match extract_after_pre image_trimmed (str "img.shields.io/crates/v/") with
    | some c => (str "crates_version", str "crates:" ++ c, some (.crateName c))
    | none =>
    match extract_after_pre image_trimmed (str "img.shields.io/crates/d/") with
    | some c =>
      (str "crates_downloads", str "crates_downloads:" ++ c, some (.crateName c))
    | none =>
    if containsSub (str "img.shields.io/github/license/") image_trimmed then
      (str "license", str "license:github", none)
    else if containsSub (str "img.shields.io/github/v/release/") image_trimmed then
      (str "github_release", str "release:github", none)
    else
    match extract_codecov_repo image_trimmed with
    | some (owner, repo) =>
      (str "coverage", str "coverage:codecov", some (.codecov owner repo))
    | none =>
    match extract_custom_badge image_trimmed with
    | some (label, message) =>
      if eqIgnoreAsciiCase label (str "docs") then
        (str "docs", str "docs:custom", some (.docsLabel label message))
      else (str "unknown", str "unknown:" ++ hash_line raw, none)
    | none => (str "unknown", str "unknown:" ++ hash_line raw, none)

/-- `ParsedBadge` (src/readme_badges.rs); the `source` field is the
constant `"readme"` everywhere and is kept for fidelity. -/
structure ParsedBadge where
  id : Str
  kind : Str
  label : Str
  image : Str
  link : Option Str
  source : Str
  meta : Option BadgeMeta
  raw : Str
deriving Repr, DecidableEq

/-- `build_badge` (src/readme_badges.rs). -/
def build_badge (raw label image : Str) (link : Option Str) : ParsedBadge :=
  let r := infer_kind image raw
  { id := r.2.1, kind := r.1, label := label, image := image, link := link,
    source := str "readme", meta := r.2.2, raw := raw }

/-- `parse_badge_line` (src/readme_badges.rs): total; unmatched shapes
degrade to the `unknown` record. -/
def parse_badge_line (line : Str) : ParsedBadge :=
  match parse_linked_image line with
  | some (label, image, link) => build_badge line label image (some link)
  | none =>
    match parse_image line with
    | some (label, image) => build_badge line label image none
    | none =>
      { id := str "unknown:" ++ hash_line line, kind := str "unknown",
        label := [], image := [], link := none, source := str "readme",
        meta := none, raw := line }

/-- `parse_badge_line_optional` (src/readme_badges.rs). -/
def parse_badge_line_optional (line : Str) : Option ParsedBadge :=
  match parse_linked_image line with
  | some (label, image, link) => some (build_badge line label image (some link))
  | none =>
    match parse_image line with
    | some (label, image) => some (build_badge line label image none)
    | none => none

/-- `RemovalOutcome` (src/readme_remove.rs).  `removed_kinds` is a
`HashMap<String, usize>` in the source; it is modelled as its lookup
function (absent keys map to 0). -/
structure RemovalOutcome where
  remaining : List Str
  removed : Nat
  id_hits : Nat
  removed_ids : List Str
  removed_kinds : Str → Nat
  missing_ids : List Str

/-- Loop body of `remove_block_lines_by_id_kind` (src/readme_remove.rs):
walk the block lines with the fence state; fence lines and fenced lines
are kept; otherwise the line's id/kind candidates are matched against the
requested sets. -/
def removeGo (idSet kindSet : List Str) : List Str → Bool → RemovalOutcome
  | [], _ =>
    { remaining := [], removed := 0, id_hits := 0, removed_ids := [],
      removed_kinds := fun _ => 0, missing_ids := [] }
  | line :: rest, fence =>
    if is_code_fence line then
      let o := removeGo idSet kindSet rest (!fence)
      { o with remaining := line :: o.remaining }
    else if fence then
      let o := removeGo idSet kindSet rest fence
      { o with remaining := line :: o.remaining }
    else
      let parsed := parse_badge_line_optional line
      let id_candidate := match parsed with
        | some badge => badge.id
        | none => str "unknown:" ++ hash_line line
      let kind_candidate := match parsed with
        | some badge => badge.kind
        | none => str "unknown"
      let remove_by_id := ¬ (idSet = []) ∧ id_candidate ∈ idSet
      let remove_by_kind := ¬ (kindSet = []) ∧ kind_candidate ∈ kindSet
      let o := removeGo idSet kindSet rest fence
      if remove_by_id ∨ remove_by_kind then
        { o with
          id_hits := (if remove_by_id then 1 else 0) + o.id_hits,
          removed_ids := id_candidate :: o.removed_ids,
          removed_kinds := fun k =>
            if k = kind_candidate then o.removed_kinds k + 1
            else o.removed_kinds k,
          removed := o.removed + 1 }
      else
        { o with remaining := line :: o.remaining }

/-- `remove_block_lines_by_id_kind` (src/readme_remove.rs).  The id/kind
`HashSet`s are modelled as the lists of trimmed entries (membership is
all that is consulted; `missing_ids` preserves the filter but not the
unspecified hash-set iteration order). -/
def remove_block_lines_by_id_kind (content : Str) (ids kinds : List Str)
    (strict : Bool) : Except Str RemovalOutcome :=
  match extract_marker_block_lines content with
  | .error e => .error e
  | .ok lines =>
    let id_set := ids.map trimChars
    let kind_set := kinds.map trimChars
    let o := removeGo id_set kind_set lines false
    let o := { o with
      missing_ids :=
        if id_set = [] then []
        else id_set.filter (fun i => ¬ (i ∈ o.removed_ids)) }
    if strict ∧ ¬ (id_set = []) ∧ o.id_hits = 0 then
      .error (str "id_not_found")
    else .ok o

/-- `VersionOptions` (src/version.rs); `year_min`/`year_max` are `i32`. -/
structure VersionOptions where
  allow_yy_calver : Bool
  year_min : Int
  year_max : Int

/-- Structured view of the `calver_parts` JSON object (src/version.rs):
always a year and a month, optionally a day and/or a micro counter. -/
structure CalverParts where
  year : Nat
  month : Nat
  day : Option Nat
  micro : Option Nat
deriving Repr, DecidableEq

/-- Structured view of the `semver_parts` JSON object (src/version.rs). -/
structure SemverParts where
  major : Nat
  minor : Nat
  patch : Nat
  pre : Option Str
  build : Option Str
deriving Repr, DecidableEq

/-- `VersionInfo` (src/version.rs). -/
structure VersionInfo where
  raw : Str
  version_format : Str
  calver_scheme : Option Str
  calver_parts : Option CalverParts
  modifier : Option Str
  semver_parts : Option SemverParts
deriving Repr, DecidableEq

/-- Rust `str::parse::<u32>()`: an optional sign (`+` accepted for
unsigned), then one or more ASCII digits, value within `u32` range. -/
def parse_u32 (s : Str) : Option Nat :=
  let digits := if s.head? = some '+' then s.drop 1 else s
  if digits = [] ∨ ¬ (digits.all Char.isDigit) then none
  else if digits.foldl (fun acc c => acc * 10 + (c.toNat - 48)) 0 < 2 ^ 32 then
    some (digits.foldl (fun acc c => acc * 10 + (c.toNat - 48)) 0)
  else none

/-- Index of the last occurrence of `c` in `s` (Rust `str::rfind`). -/
def rfindChar (c : Char) (s : Str) : Option Nat :=
  match findSub [c] s.reverse with
  | some i => some (s.length - 1 - i)
  | none => none

/-- Index of the last ASCII digit in `s` (the `char_indices` scan inside
`split_modifier`, src/version.rs). -/
def lastDigitIdx (s : Str) : Option Nat :=
  match s.reverse.findIdx? Char.isDigit with
  | some i => some (s.length - 1 - i)
  | none => none

/-- Digit-scan fallback of `split_modifier` (src/version.rs). -/
def splitModifierDigits (raw : Str) : Str × Option Str :=
  match lastDigitIdx raw with
  | some idx =>
    let tail := raw.drop (idx + 1)
    if ¬ (tail = []) ∧ tail.any Char.isAlpha then
      (raw.take (idx + 1), some tail)
    else (raw, none)
  | none => (raw, none)

/-- `split_modifier` (src/version.rs): split a trailing alphabetic
qualifier off the version string, first at the last `-`, otherwise after
the last digit. -/
def split_modifier (raw : Str) : Str × Option Str :=
  match rfindChar '-' raw with
  | some idx =>
    let core := raw.take idx
    let suffix := raw.drop idx
    if suffix.length > 1 ∧ ((suffix.drop 1).any Char.isAlpha) then
      (core, some (suffix.drop 1))
    else
      splitModifierDigits raw
  | none => splitModifierDigits raw
/-- Rust `as u32` on an `i32` (wrapping cast), used by the year-bound
comparisons in src/version.rs. -/
def u32cast (n : Int) : Nat := (n % 4294967296).toNat

/-- `parse_year_month_yyyy` (src/version.rs). -/
def parse_year_month_yyyy (core : Str) (sep : Char) (opts : VersionOptions) :
    Option (Nat × Nat) :=
  match splitChar sep core with
  | [p0, p1] =>
    if sep = '.' ∧ p0.length = 4 then
      match parse_u32 p0, parse_u32 p1 with
      | some year, some month =>
        if year < u32cast opts.year_min ∨ year > u32cast opts.year_max ∨
            ¬ (1 ≤ month ∧ month ≤ 12) then none
        else some (year, month)
      | _, _ => none
    else none
  | _ => none

/-- `parse_year_month_yy` (src/version.rs): two-digit year, no
configurable bound beyond `year ≤ 99`. -/
def parse_year_month_yy (core : Str) (sep : Char) : Option (Nat × Nat) :=
  match splitChar sep core with
  | [p0, p1] =>
    if sep = '.' ∧ p0.length = 2 then
      match parse_u32 p0, parse_u32 p1 with
      | some year, some month =>
        if ¬ (1 ≤ month ∧ month ≤ 12) ∨ year > 99 then none
        else some (year, month)
      | _, _ => none
    else none
  | _ => none

/-- `parse_year_month_micro_yy` (src/version.rs). -/
def parse_year_month_micro_yy (core : Str) (sep : Char) :
    Option (Nat × Nat × Nat) :=
  match splitChar sep core with
  | [p0, p1, p2] =>
    if sep = '.' ∧ p0.length = 2 then
      match parse_u32 p0, parse_u32 p1, parse_u32 p2 with
      | some year, some month, some micro =>
        if ¬ (1 ≤ month ∧ month ≤ 12) ∨ year > 99 then none
        else some (year, month, micro)
      | _, _, _ => none
    else none
  | _ => none

/-- `parse_year_month_micro_yyyy` (src/version.rs). -/
def parse_year_month_micro_yyyy (core : Str) (sep : Char)
    (opts : VersionOptions) : Option (Nat × Nat × Nat) :=
  match splitChar sep core with
  | [p0, p1, p2] =>
    if sep = '.' ∧ p0.length = 4 then
      match parse_u32 p0, parse_u32 p1, parse_u32 p2 with
      | some year, some month, some micro =>
        if year < u32cast opts.year_min ∨ year > u32cast opts.year_max ∨
            ¬ (1 ≤ month ∧ month ≤ 12) then none
        else some (year, month, micro)
      | _, _, _ => none
    else none
  | _ => none

/-- `parse_year_month_day` (src/version.rs). -/
def parse_year_month_day (core : Str) (sep : Char) (opts : VersionOptions) :
    Option (Nat × Nat × Nat) :=
  match splitChar sep core with
  | [p0, p1, p2] =>
    if sep = '-' ∧ p0.length = 4 then
      match parse_u32 p0, parse_u32 p1, parse_u32 p2 with
      | some year, some month, some day =>
        if year < u32cast opts.year_min ∨ year > u32cast opts.year_max ∨
            ¬ (1 ≤ month ∧ month ≤ 12) ∨ ¬ (1 ≤ day ∧ day ≤ 31) then none
        else some (year, month, day)
      | _, _, _ => none
    else none
  | _ => none

/-- Rust `str::split_once('.')` (src/version.rs, `parse_yyyymmdd`). -/
def splitOnceDot (s : Str) : Option (Str × Str) :=
  match findSub ['.'] s with
  | some i => some (s.take i, s.drop (i + 1))
  | none => none

/-- `parse_yyyymmdd` (src/version.rs): 8 contiguous digits, optionally
followed by `.` and a micro counter; returns the scheme label and parts. -/
def parse_yyyymmdd (core : Str) (opts : VersionOptions) :
    Option (Str × CalverParts) :=
  let dm : Str × Option Str := match splitOnceDot core with
    | some p => (p.1, some p.2)
    | none => (core, none)
  let date := dm.1
  let micro := dm.2
  if ¬ (date.length = 8 ∧ date.all Char.isDigit) then none
  else
    match parse_u32 (date.take 4), parse_u32 ((date.drop 4).take 2),
        parse_u32 ((date.drop 6).take 2) with
    | some year, some month, some day =>
      if year < u32cast opts.year_min ∨ year > u32cast opts.year_max ∨
          ¬ (1 ≤ month ∧ month ≤ 12) ∨ ¬ (1 ≤ day ∧ day ≤ 31) then none
      else
        match micro with
        | some micro_str =>
          match parse_u32 micro_str with
          | some micro => some (str "YYYYMMDD.MICRO",
              { year := year, month := month, day := some day,
                micro := some micro })
          | none => none
        | none => some (str "YYYYMMDD",
            { year := year, month := month, day := some day, micro := none })
    | _, _, _ => none

/-- `classify_calver` (src/version.rs): the calendar patterns tried in
source order; `none` when no pattern matches. -/
def classify_calver (core : Str) (modifier : Option Str)
    (opts : VersionOptions) : Option VersionInfo :=
  match parse_year_month_yyyy core '.' opts with
  | some (year, month) => some
    { raw := core, version_format := str "calver",
      calver_scheme := some (str "YYYY.MM"),
      calver_parts := some
        { year := year, month := month, day := none, micro := none },
      modifier := modifier, semver_parts := none }
  | none =>
  match parse_year_month_micro_yyyy core '.' opts with
  | some (year, month, micro) => some
    { raw := core, version_format := str "calver",
      calver_scheme := some (str "YYYY.MM.MICRO"),
      calver_parts := some
        { year := year, month := month, day := none, micro := some micro },
      modifier := modifier, semver_parts := none }
  | none =>
  match parse_year_month_day core '-' opts with
  | some (year, month, day) => some
    { raw := core, version_format := str "calver",
      calver_scheme := some (str "YYYY-MM-DD"),
      calver_parts := some
        { year := year, month := month, day := some day, micro := none },
      modifier := modifier, semver_parts := none }
  | none =>
  match parse_yyyymmdd core opts with
  | some (scheme, parts) => some
    { raw := core, version_format := str "calver",
      calver_scheme := some scheme, calver_parts := some parts,
      modifier := modifier, semver_parts := none }
  | none =>
  if opts.allow_yy_calver then
    match parse_year_month_yy core '.' with
    | some (year, month) => some
      { raw := core, version_format := str "calver",
        calver_scheme := some (str "YY.MM"),
        calver_parts := some
          { year := 2000 + year, month := month, day := none, micro := none },
        modifier := modifier, semver_parts := none }
    | none =>
    match parse_year_month_micro_yy core '.' with
    | some (year, month, micro) => some
      { raw := core, version_format := str "calver",
        calver_scheme := some (str "YY.MM.MICRO"),
        calver_parts := some
          { year := 2000 + year, month := month, day := none,
            micro := some micro },
        modifier := modifier, semver_parts := none }
    | none => none
  else none

/-- A numeric semver component: one or more ASCII digits, no leading
zero, within `u64` range; returns the value and the rest of the input. -/
def semverNumPart (s : Str) : Option (Nat × Str) :=
  let digits := s.takeWhile Char.isDigit
  if digits = [] then none
  else if digits.length > 1 ∧ digits.head? = some '0' then none
  else
    let v := digits.foldl (fun acc c => acc * 10 + (c.toNat - 48)) 0
    if v < 2 ^ 64 then some (v, s.drop digits.length) else none

/-- A pre-release identifier: nonempty, ASCII alphanumerics or hyphens,
and if purely numeric then without a leading zero. -/
def semverValidPreId (id : Str) : Bool :=
  (¬ (id = []) ∧ id.all (fun c => c.isAlphanum ∨ c = '-') ∧
    (id.all Char.isDigit → (id.length = 1 ∨ ¬ (id.head? = some '0')))  : Bool)

/-- A build-metadata identifier: nonempty, ASCII alphanumerics or
hyphens. -/
def semverValidBuildId (id : Str) : Bool :=
  (¬ (id = []) ∧ id.all (fun c => c.isAlphanum ∨ c = '-') : Bool)

/-- Modelled from the spec: "strict semantic-version parsing" — the
source delegates to the external `semver` crate (`semver::Version::parse`),
which is a dependency of the repository, not part of its sources.
SemVer 2.0.0: `MAJOR.MINOR.PATCH` with numeric components (no leading
zeros), then an optional `-`-introduced dot-separated pre-release and an
optional `+`-introduced dot-separated build suffix.  Returns the numeric
parts plus the raw pre-release and build strings (empty when absent), as
the crate's `Version` does. -/
def semver_parse (s : Str) : Option (Nat × Nat × Nat × Str × Str) :=
  match semverNumPart s with
  | none => none
  | some (major, r1) =>
  match r1 with
  | '.' :: r1' =>
    match semverNumPart r1' with
    | none => none
    | some (minor, r2) =>
    match r2 with
    | '.' :: r2' =>
      match semverNumPart r2' with
      | none => none
      | some (patch, r3) =>
        let pre := if r3.head? = some '-' then
            (r3.drop 1).takeWhile (fun c => ¬ (c = '+')) else []
        let r4 := if r3.head? = some '-' then r3.drop (1 + pre.length) else r3
        let build := match r4 with
          | '+' :: b => b
          | _ => []
        let tailOk := match r4 with
          | '+' :: _ => true
          | [] => true
          | _ => false
        let preOk := (decide (¬ (r3.head? = some '-'))) ||
          (splitChar '.' pre).all semverValidPreId
        let buildOk := (decide (¬ (r4.head? = some '+'))) ||
          (splitChar '.' build).all semverValidBuildId
        if tailOk && preOk && buildOk then some (major, minor, patch, pre, build)
        else none
    | _ => none
  | _ => none

/-- `semver_or_unknown` (src/version.rs): strict semver parse of the
argument; empty pre-release/build become `none` in the parts. -/
def semver_or_unknown (raw : Str) : VersionInfo :=
  match semver_parse raw with
  | some (major, minor, patch, pre, build) =>
    { raw := raw, version_format := str "semver", calver_scheme := none,
      calver_parts := none, modifier := none,
      semver_parts := some
        { major := major, minor := minor, patch := patch,
          pre := if pre = [] then none else some pre,
          build := if build = [] then none else some build } }
  | none =>
    { raw := raw, version_format := str "unknown", calver_scheme := none,
      calver_parts := none, modifier := none, semver_parts := none }

/-- `classify_version` (src/version.rs). -/
def classify_version (raw : Str) (opts : VersionOptions) : VersionInfo :=
  let trimmed := trimChars raw
  let core := (split_modifier trimmed).1
  let modifier := (split_modifier trimmed).2
  if containsChar '+' core then semver_or_unknown trimmed
  else if containsChar '.' core ∧ containsChar '-' core then
    semver_or_unknown trimmed
  else
    match classify_calver core modifier opts with
    | some info => info
    | none => semver_or_unknown trimmed

/-- The well-formedness predicate shared by the strict block operations:
exactly one begin and one end sentinel outside fences, with the begin
index strictly below the end index. -/
def validMarkers (content : Str) : Bool :=
  let newline := (detect_newline content).1
  let lines := split_lines content newline
  match collect_marker_indices lines with
  | ([b], [e]) => decide (b < e)
  | _ => false

/-- Fence parity before line `i`: `true` when line `i` sits inside an
open fenced region (an odd number of fence lines precede it). -/
def fenceOddAt (lines : List Str) (i : Nat) : Bool :=
  (lines.take i).countP is_code_fence % 2 = 1

/-- Spec-side heading test for line `i` of `lines`: outside fences, not
itself a fence line, and starting with `"# "`. -/
def headingP (lines : List Str) (i : Nat) : Bool :=
  !(fenceOddAt lines i) && !(is_code_fence (lines.getD i [])) &&
    isPreOf (str "# ") (lines.getD i [])

/-- Spec-side description of the heading scan of `ensure_marker_block`:
the first index whose line is outside fences, is not itself a fence line,
and starts with `"# "`. -/
def specFirstHeading (lines : List Str) : Option Nat :=
  (List.range lines.length).find? (headingP lines)

/-- Spec-side description of the line-list edit of `ensure_marker_block`:
the sentinel pair goes immediately after the first non-fenced level-1
heading, or at the very top when there is none. -/
def specInsertPair (lines : List Str) : List Str :=
  match specFirstHeading lines with
  | some i => lines.take (i + 1) ++ [bdg_begin, bdg_end] ++ lines.drop (i + 1)
  | none => bdg_begin :: bdg_end :: lines

/-- Spec-side: the text after the first occurrence of `pat`. -/
def afterFirstSub (pat s : Str) : Option Str :=
  (findSub pat s).map (fun i => s.drop (i + pat.length))

/-- Spec-side: "the path segment between `/actions/workflows/` and the
next `/`" of a workflow-badge image URL. -/
def workflowSegSpec (url : Str) : Str :=
  ((afterFirstSub (str "/actions/workflows/") url).getD []).takeWhile
    (fun c => ¬ (c = '/'))

/-- Every carriage return in the text is immediately followed by a line
feed (no bare `\r`). -/
def noBareCR : Str → Bool
  | [] => true
  | '\r' :: '\n' :: rest => noBareCR rest
  | '\r' :: _ => false
  | _ :: rest => noBareCR rest

theorem isOk_guard_eq {α : Type} (p : List Nat × List Nat) (f : Nat → Nat → α) :
    (match p with
      | ([b], [e]) =>
        if b ≥ e then (.error errInvalid : Except Str α) else .ok (f b e)
      | _ => .error errMissing).isOk
    = match p with
      | ([b], [e]) => decide (b < e)
      | _ => false := by
  rcases p with ⟨bs, es⟩
  rcases bs with _ | ⟨b, _ | ⟨b2, bs⟩⟩ <;>
    rcases es with _ | ⟨e, _ | ⟨e2, es⟩⟩ <;>
      try rfl
  dsimp only
  by_cases hbe : b ≥ e
  · rw [if_pos hbe]
    have hnot : ¬ b < e := by omega
    simp [Except.isOk, Except.toBool, hnot]
  · rw [if_neg hbe]
    have hyes : b < e := by omega
    simp [Except.isOk, Except.toBool, hyes]

theorem guard_false_nil (p : List Nat × List Nat) (g : Nat → Nat → List Str)
    (h : (match p with
      | ([b], [e]) => decide (b < e)
      | _ => false) = false) :
    (match p with
      | ([b], [e]) => if b ≥ e then ([] : List Str) else g b e
      | _ => []) = [] := by
  rcases p with ⟨bs, es⟩
  rcases bs with _ | ⟨b, _ | ⟨b2, bs⟩⟩ <;>
    rcases es with _ | ⟨e, _ | ⟨e2, es⟩⟩ <;>
      try rfl
  have hnot : ¬ b < e := of_decide_eq_false h
  dsimp only
  rw [if_pos (by omega)]

/-- C1: the rewrite is NOT idempotent as claimed.  On the valid document
`"<!-- bdg:begin -->\n<!-- bdg:end -->\n"` (one begin, one end, in order,
trailing newline) the first rewrite appends an extra blank line — the
split keeps the trailing empty segment and the join re-appends the
newline — and the second rewrite appends yet another, so the two outputs
differ. -/
theorem C1_rewrite_not_idempotent :
    rewrite_marker_block (str "<!-- bdg:begin -->\n<!-- bdg:end -->\n")
        [str "![a](a)"] =
      .ok (str "<!-- bdg:begin -->\n![a](a)\n<!-- bdg:end -->\n\n") ∧
    rewrite_marker_block
        (str "<!-- bdg:begin -->\n![a](a)\n<!-- bdg:end -->\n\n")
        [str "![a](a)"] =
      .ok (str "<!-- bdg:begin -->\n![a](a)\n<!-- bdg:end -->\n\n\n") ∧
    ¬ (str "<!-- bdg:begin -->\n![a](a)\n<!-- bdg:end -->\n\n" =
       str "<!-- bdg:begin -->\n![a](a)\n<!-- bdg:end -->\n\n\n") := by
  refine ⟨by rfl, by rfl, by decide⟩

/-- C2: the split/rejoin round trip FAILS on any text ending in a
newline: for `"a\n"` the split keeps the trailing empty segment and the
join appends the detected newline again, yielding `"a\n\n"`. -/
theorem C2_split_join_not_roundtrip :
    detect_newline (str "a\n") = (str "\n", true) ∧
    split_lines (str "a\n") (str "\n") = [str "a", []] ∧
    join_lines [str "a", []] (str "\n") true = str "a\n\n" ∧
    ¬ (str "a\n\n" = str "a\n") := by
  refine ⟨by rfl, by rfl, by rfl, by decide⟩

/-- C3, counterexample: `extract_managed_block` does not return an empty
sequence ONLY in the invalid cases — the valid document
`"<!-- bdg:begin -->\n<!-- bdg:end -->"` (strict rewrite succeeds on it)
also yields the empty sequence. -/
theorem C3_counterexample :
    validMarkers (str "<!-- bdg:begin -->\n<!-- bdg:end -->") = true ∧
    (rewrite_marker_block (str "<!-- bdg:begin -->\n<!-- bdg:end -->")
      []).isOk = true ∧
    extract_managed_block (str "<!-- bdg:begin -->\n<!-- bdg:end -->")
      = [] := by
  refine ⟨by rfl, by rfl, by rfl⟩

/-- C3, amended: the four strict operations succeed exactly on documents
with one begin and one end sentinel outside fences, begin strictly before
end (`validMarkers`), and error otherwise; the lenient
`extract_managed_block` never fails and returns the empty sequence in all
of those invalid cases (it may also return the empty sequence for a valid
block whose interior is all blank); `ensure_marker_block` never returns
these errors. -/
theorem C3_amended :
    (∀ content badges,
      (rewrite_marker_block content badges).isOk = validMarkers content) ∧
    (∀ content ls,
      (rewrite_marker_block_lines content ls).isOk = validMarkers content) ∧
    (∀ content,
      (extract_marker_block_lines content).isOk = validMarkers content) ∧
    (∀ content,
      (remove_marker_block content).isOk = validMarkers content) ∧
    (∀ content, validMarkers content = false →
      extract_managed_block content = []) ∧
    (∀ content, (ensure_marker_block content).isOk = true) := by
  refine ⟨?_, ?_, ?_, ?_, ?_, ?_⟩
  · intro c bs
    unfold rewrite_marker_block validMarkers
    exact isOk_guard_eq _ _
  · intro c ls
    unfold rewrite_marker_block_lines validMarkers
    exact isOk_guard_eq _ _
  · intro c
    unfold extract_marker_block_lines validMarkers
    exact isOk_guard_eq _ _
  · intro c
    unfold remove_marker_block validMarkers
    exact isOk_guard_eq _ _
  · intro c h
    unfold extract_managed_block
    unfold validMarkers at h
    exact guard_false_nil _ _ h
  · intro c
    simp only [ensure_marker_block]
    split <;> rfl

/-- C3, witness: the amended theorem applied at the empty document (an
invalid case) and at its other closed conjuncts. -/
theorem C3_amended_witness :
    (rewrite_marker_block [] []).isOk = validMarkers [] ∧
    extract_managed_block [] = [] ∧
    (ensure_marker_block []).isOk = true := by
  refine ⟨C3_amended.1 [] [], C3_amended.2.2.2.2.1 [] (by rfl),
    C3_amended.2.2.2.2.2 []⟩

/-- C10: a document whose unique begin/end sentinels are mis-ordered (end
strictly before begin) is returned unchanged by `ensure_marker_block` —
which only checks the two counts — while every strict operation rejects
it with the ordering error `invalid marker block`; the mis-ordered block
is never self-healed. -/
theorem C10_misordered_block (content : Str) (b e : Nat)
    (h : collect_marker_indices
      (split_lines content (detect_newline content).1) = ([b], [e]))
    (hlt : e < b) :
    ensure_marker_block content = .ok content ∧
    (∀ badges, rewrite_marker_block content badges = .error errInvalid) ∧
    (∀ ls, rewrite_marker_block_lines content ls = .error errInvalid) ∧
    extract_marker_block_lines content = .error errInvalid ∧
    remove_marker_block content = .error errInvalid := by
  have hge : b ≥ e := Nat.le_of_lt hlt
  refine ⟨?_, ?_, ?_, ?_, ?_⟩
  · simp [ensure_marker_block, h]
  · intro badges
    simp [rewrite_marker_block, h, hge]
  · intro ls
    simp [rewrite_marker_block_lines, h, hge]
  · simp [extract_marker_block_lines, h, hge]
  · simp [remove_marker_block, h, hge]

/-- C10, witness: the mis-ordered document
`"<!-- bdg:end -->\n<!-- bdg:begin -->"`. -/
theorem C10_misordered_block_witness :
    ensure_marker_block (str "<!-- bdg:end -->\n<!-- bdg:begin -->") =
      .ok (str "<!-- bdg:end -->\n<!-- bdg:begin -->") ∧
    rewrite_marker_block (str "<!-- bdg:end -->\n<!-- bdg:begin -->") [] =
      .error errInvalid := by
  have h := C10_misordered_block
    (str "<!-- bdg:end -->\n<!-- bdg:begin -->") 1 0 (by rfl) (by decide)
  exact ⟨h.1, h.2.1 []⟩

/-- C6: whenever the modifier-split core contains a `+`, or contains both
a `.` and a `-`, or no calendar pattern matches, `classify_version`
returns the strict-semver fallback applied to the original trimmed input
(not the core): format `semver` with the numeric parts and optional
pre-release/build on parse success, format `unknown` with no structured
parts on failure. -/
theorem C6_semver_fallback (raw : Str) (opts : VersionOptions)
    (h : containsChar '+' (split_modifier (trimChars raw)).1 = true ∨
      (containsChar '.' (split_modifier (trimChars raw)).1 = true ∧
        containsChar '-' (split_modifier (trimChars raw)).1 = true) ∨
      classify_calver (split_modifier (trimChars raw)).1
        (split_modifier (trimChars raw)).2 opts = none) :
    classify_version raw opts = semver_or_unknown (trimChars raw) ∧
    ((∃ major minor patch pre build,
        semver_parse (trimChars raw) = some (major, minor, patch, pre, build) ∧
        (semver_or_unknown (trimChars raw)).version_format = str "semver" ∧
        (semver_or_unknown (trimChars raw)).semver_parts = some
          { major := major, minor := minor, patch := patch,
            pre := if pre = [] then none else some pre,
            build := if build = [] then none else some build }) ∨
      (semver_parse (trimChars raw) = none ∧
        (semver_or_unknown (trimChars raw)).version_format = str "unknown" ∧
        (semver_or_unknown (trimChars raw)).semver_parts = none)) := by
  constructor
  · by_cases c1 : containsChar '+' (split_modifier (trimChars raw)).1 = true
    · simp [classify_version, c1]
    · by_cases c2 : containsChar '.' (split_modifier (trimChars raw)).1 = true ∧
          containsChar '-' (split_modifier (trimChars raw)).1 = true
      · simp [classify_version, c1, c2]
      · have hcal : classify_calver (split_modifier (trimChars raw)).1
            (split_modifier (trimChars raw)).2 opts = none := by
          rcases h with h | h | h
          · exact absurd h c1
          · exact absurd h c2
          · exact h
        simp [classify_version, c1, c2, hcal]
  · cases hsp : semver_parse (trimChars raw) with
    | none => exact Or.inr ⟨rfl, by simp [semver_or_unknown, hsp], by
        simp [semver_or_unknown, hsp]⟩
    | some q =>
      obtain ⟨major, minor, patch, pre, build⟩ := q
      exact Or.inl ⟨major, minor, patch, pre, build, rfl, by
        simp [semver_or_unknown, hsp], by simp [semver_or_unknown, hsp]⟩

/-- C6, witness: `"1+2"` has core `"1+2"` containing `+`; semver parsing
of it fails, so the classification is `unknown`. -/
theorem C6_semver_fallback_witness :
    classify_version (str "1+2") ⟨false, 2000, 2199⟩ =
      semver_or_unknown (trimChars (str "1+2")) ∧
    (classify_version (str "1+2") ⟨false, 2000, 2199⟩).version_format =
      str "unknown" := by
  have h := C6_semver_fallback (str "1+2") ⟨false, 2000, 2199⟩
    (Or.inl (by rfl))
  refine ⟨h.1, ?_⟩
  rw [h.1]
  rfl

theorem digit_val (c : Char) (h : c.isDigit = true) :
    48 ≤ c.toNat ∧ c.toNat ≤ 57 := by
  simp [Char.isDigit] at h
  exact ⟨h.1, h.2⟩

theorem digit_not_ws (c : Char) (h : c.isDigit = true) :
    c.isWhitespace = false := by
  simp [Char.isDigit] at h
  simp [Char.isWhitespace]
  refine ⟨⟨⟨?_, ?_⟩, ?_⟩, ?_⟩ <;> rintro rfl <;> exact absurd h (by decide)

theorem digit_ne_of (c d : Char) (h : c.isDigit = true)
    (hd : d.isDigit = false) : ¬ c = d := by
  rintro rfl
  rw [h] at hd
  cases hd

theorem dropWhile_head_false {p : Char → Bool} {a : Char} {t : Str}
    (h : p a = false) : (a :: t).dropWhile p = a :: t := by
  simp [List.dropWhile, h]

theorem trimChars_eq_self (s : Str)
    (h : ∀ x ∈ s, x.isWhitespace = false) : trimChars s = s := by
  cases s with
  | nil => rfl
  | cons a t =>
    unfold trimChars
    rw [dropWhile_head_false (h a (by simp))]
    rcases hr : (a :: t).reverse with _ | ⟨b, r⟩
    · exact absurd hr (by simp)
    · have hb : b.isWhitespace = false := h b (by
        rw [← List.mem_reverse, hr]
        simp)
      rw [dropWhile_head_false hb]
      rw [← hr, List.reverse_reverse]

theorem splitChar_no_sep (sep : Char) (s : Str)
    (h : ∀ x ∈ s, ¬ x = sep) : splitChar sep s = [s] := by
  induction s with
  | nil => rfl
  | cons a t ih =>
    rw [splitChar, if_neg (h a (by simp))]
    rw [ih (fun x hx => h x (by simp [hx]))]

theorem findSub_single_none (c : Char) (s : Str)
    (h : ∀ x ∈ s, ¬ x = c) : findSub [c] s = none := by
  induction s with
  | nil => rfl
  | cons a t ih =>
    rw [findSub]
    rw [if_neg (by
      simp [isPreOf]
      intro he
      exact absurd he.symm (h a (by simp)))]
    rw [ih (fun x hx => h x (by simp [hx]))]
    rfl

theorem containsChar_false (v : Char) (s : Str)
    (h : ∀ x ∈ s, ¬ x = v) : containsChar v s = false := by
  unfold containsChar
  induction s with
  | nil => rfl
  | cons a t ih =>
    have ha : ¬ a = v := h a (by simp)
    simp only [List.contains_cons]
    rw [ih (fun x hx => h x (by simp [hx]))]
    simp [beq_iff_eq]
    exact fun he => absurd he.symm ha

/-- C7: on input `DD.M…` (two digits, dot, a digit month string valued in
1..12), `classify_version` yields format `unknown` when `allow_yy_calver`
is off, and with the flag on yields `calver` with scheme `YY.MM` and year
`2000 + YY`, for every two-digit year value (necessarily ≤ 99) and
independently of the `year_min`/`year_max` bounds. -/
theorem C7_yy_calver (d1 d2 : Char) (ms : Str) (m y : Nat)
    (opts opts' : VersionOptions)
    (hd1 : d1.isDigit = true) (hd2 : d2.isDigit = true)
    (hmsne : ¬ ms = []) (hmsall : ms.all Char.isDigit = true)
    (hm : parse_u32 ms = some m) (hm1 : 1 ≤ m) (hm12 : m ≤ 12)
    (hy : parse_u32 [d1, d2] = some y)
    (hoff : opts.allow_yy_calver = false)
    (hon : opts'.allow_yy_calver = true) :
    y ≤ 99 ∧
    (classify_version (d1 :: d2 :: '.' :: ms) opts).version_format =
      str "unknown" ∧
    classify_version (d1 :: d2 :: '.' :: ms) opts' =
      { raw := d1 :: d2 :: '.' :: ms, version_format := str "calver",
        calver_scheme := some (str "YY.MM"),
        calver_parts := some
          { year := 2000 + y, month := m, day := none, micro := none },
        modifier := none, semver_parts := none } := by
  have hdotd : Char.isDigit '.' = false := by decide
  have hx_cases : ∀ x ∈ d1 :: d2 :: '.' :: ms, x.isDigit = true ∨ x = '.' := by
    intro x hx
    simp only [List.mem_cons] at hx
    rcases hx with rfl | rfl | rfl | hx
    · exact Or.inl hd1
    · exact Or.inl hd2
    · exact Or.inr rfl
    · exact Or.inl (by
        have := List.all_eq_true.mp hmsall x hx
        simpa using this)
  have hws : ∀ x ∈ d1 :: d2 :: '.' :: ms, x.isWhitespace = false := by
    intro x hx
    rcases hx_cases x hx with hxd | rfl
    · exact digit_not_ws x hxd
    · decide
  have hnd : ∀ d : Char, d.isDigit = false → ¬ d = '.' →
      ∀ x ∈ d1 :: d2 :: '.' :: ms, ¬ x = d := by
    intro d hdf hddot x hx
    rcases hx_cases x hx with hxd | rfl
    · exact digit_ne_of x d hxd hdf
    · exact fun he => hddot he.symm
  have htrim : trimChars (d1 :: d2 :: '.' :: ms) = d1 :: d2 :: '.' :: ms :=
    trimChars_eq_self _ hws
  have hrf : rfindChar '-' (d1 :: d2 :: '.' :: ms) = none := by
    unfold rfindChar
    rw [findSub_single_none '-' _ (fun x hx =>
      hnd '-' (by decide) (by decide) x (List.mem_reverse.mp hx))]
  obtain ⟨lm, rm, hrev⟩ : ∃ lm rm, ms.reverse = lm :: rm := by
    rcases hr : ms.reverse with _ | ⟨lm, rm⟩
    · exact absurd (by simpa using hr) hmsne
    · exact ⟨lm, rm, rfl⟩
  have hlm : lm.isDigit = true := by
    have hmem : lm ∈ ms := by
      rw [← List.mem_reverse, hrev]
      simp
    have := List.all_eq_true.mp hmsall lm hmem
    simpa using this
  have hsrev : (d1 :: d2 :: '.' :: ms).reverse = lm :: (rm ++ ['.', d2, d1]) := by
    simp [hrev]
  have hlast : lastDigitIdx (d1 :: d2 :: '.' :: ms) =
      some ((d1 :: d2 :: '.' :: ms).length - 1) := by
    unfold lastDigitIdx
    rw [hsrev, List.findIdx?_cons]
    simp [hlm]
  have hsm : split_modifier (d1 :: d2 :: '.' :: ms) =
      (d1 :: d2 :: '.' :: ms, none) := by
    unfold split_modifier
    rw [hrf]
    dsimp only
    unfold splitModifierDigits
    rw [hlast]
    dsimp only
    have hlen : (d1 :: d2 :: '.' :: ms).length - 1 + 1 =
        (d1 :: d2 :: '.' :: ms).length := by
      simp
    rw [hlen, List.drop_length]
    simp
  have hplus : containsChar '+' (d1 :: d2 :: '.' :: ms) = false :=
    containsChar_false _ _ (hnd '+' (by decide) (by decide))
  have hminus : containsChar '-' (d1 :: d2 :: '.' :: ms) = false :=
    containsChar_false _ _ (hnd '-' (by decide) (by decide))
  have hnodotms : ∀ x ∈ ms, ¬ x = '.' := by
    intro x hx
    have hxd : x.isDigit = true := by
      have := List.all_eq_true.mp hmsall x hx
      simpa using this
    exact digit_ne_of x '.' hxd hdotd
  have hsplitdot : splitChar '.' (d1 :: d2 :: '.' :: ms) = [[d1, d2], ms] := by
    rw [splitChar, if_neg (digit_ne_of d1 '.' hd1 hdotd)]
    rw [splitChar, if_neg (digit_ne_of d2 '.' hd2 hdotd)]
    rw [splitChar, if_pos rfl]
    rw [splitChar_no_sep '.' ms hnodotms]
  have hsplitdash : splitChar '-' (d1 :: d2 :: '.' :: ms) =
      [d1 :: d2 :: '.' :: ms] :=
    splitChar_no_sep '-' _ (hnd '-' (by decide) (by decide))
  have b1 := digit_val d1 hd1
  have b2 := digit_val d2 hd2
  have hfold : List.foldl (fun acc c => acc * 10 + (c.toNat - 48)) 0 [d1, d2]
      = (d1.toNat - 48) * 10 + (d2.toNat - 48) := by
    simp [List.foldl]
  have hv : parse_u32 [d1, d2] = some ((d1.toNat - 48) * 10 + (d2.toNat - 48)) := by
    have hne : ¬ d1 = '+' := digit_ne_of d1 '+' hd1 (by decide)
    simp [parse_u32, hne, hd1, hd2]
    omega
  have hy99 : y ≤ 99 := by
    rw [hy] at hv
    have := Option.some.inj hv
    omega
  have hyyyy : ∀ o : VersionOptions,
      parse_year_month_yyyy (d1 :: d2 :: '.' :: ms) '.' o = none := by
    intro o
    unfold parse_year_month_yyyy
    rw [hsplitdot]
    simp
  have hmicro : ∀ o : VersionOptions,
      parse_year_month_micro_yyyy (d1 :: d2 :: '.' :: ms) '.' o = none := by
    intro o
    unfold parse_year_month_micro_yyyy
    rw [hsplitdot]
  have hymd : ∀ o : VersionOptions,
      parse_year_month_day (d1 :: d2 :: '.' :: ms) '-' o = none := by
    intro o
    unfold parse_year_month_day
    rw [hsplitdash]
  have hpre1 : isPreOf ['.'] (d1 :: d2 :: '.' :: ms) = false := by
    rw [isPreOf, if_neg (fun h => (digit_ne_of d1 '.' hd1 hdotd) h.symm)]
  have hpre2 : isPreOf ['.'] (d2 :: '.' :: ms) = false := by
    rw [isPreOf, if_neg (fun h => (digit_ne_of d2 '.' hd2 hdotd) h.symm)]
  have hfinddot : findSub ['.'] (d1 :: d2 :: '.' :: ms) = some 2 := by
    rw [findSub, if_neg (by rw [hpre1]; simp)]
    rw [findSub, if_neg (by rw [hpre2]; simp)]
    rw [findSub, if_pos (by rw [isPreOf, if_pos rfl]; rfl)]
    rfl
  have hsponce : splitOnceDot (d1 :: d2 :: '.' :: ms) = some ([d1, d2], ms) := by
    unfold splitOnceDot
    rw [hfinddot]
    rfl
  have hymd8 : ∀ o : VersionOptions,
      parse_yyyymmdd (d1 :: d2 :: '.' :: ms) o = none := by
    intro o
    unfold parse_yyyymmdd
    rw [hsponce]
    simp
  have hyy : parse_year_month_yy (d1 :: d2 :: '.' :: ms) '.' = some (y, m) := by
    unfold parse_year_month_yy
    rw [hsplitdot]
    simp [hy, hm]
    omega
  have hcal' : classify_calver (d1 :: d2 :: '.' :: ms) none opts' = some
      { raw := d1 :: d2 :: '.' :: ms, version_format := str "calver",
        calver_scheme := some (str "YY.MM"),
        calver_parts := some
          { year := 2000 + y, month := m, day := none, micro := none },
        modifier := none, semver_parts := none } := by
    unfold classify_calver
    rw [hyyyy opts', hmicro opts', hymd opts', hymd8 opts']
    simp [hon, hyy]
  have hcal : classify_calver (d1 :: d2 :: '.' :: ms) none opts = none := by
    unfold classify_calver
    rw [hyyyy opts, hmicro opts, hymd opts, hymd8 opts]
    simp [hoff]
  have htwms : ms.takeWhile Char.isDigit = ms :=
    List.takeWhile_eq_self_iff.mpr (fun x hx => by
      have := List.all_eq_true.mp hmsall x hx
      simpa using this)
  have hsv : semver_parse (d1 :: d2 :: '.' :: ms) = none := by
    have htw : (d1 :: d2 :: '.' :: ms).takeWhile Char.isDigit = [d1, d2] := by
      simp [List.takeWhile, hd1, hd2, hdotd]
    have hnumtop0 : d1 = '0' →
        semverNumPart (d1 :: d2 :: '.' :: ms) = none := by
      intro hz
      unfold semverNumPart
      dsimp only
      rw [htw]
      rw [if_neg (by simp), if_pos (by simp [hz])]
    have hnumtop : ¬ d1 = '0' →
        semverNumPart (d1 :: d2 :: '.' :: ms) =
          some ((d1.toNat - 48) * 10 + (d2.toNat - 48), '.' :: ms) := by
      intro hz
      unfold semverNumPart
      dsimp only
      rw [htw]
      rw [if_neg (by simp), if_neg (by simp [hz])]
      rw [if_pos (by rw [hfold]; omega)]
      rw [hfold]
      rfl
    have hms2 : semverNumPart ms = none ∨
        ∃ v2, semverNumPart ms = some (v2, []) := by
      unfold semverNumPart
      dsimp only
      rw [htwms]
      by_cases h0 : ms.length > 1 ∧ ms.head? = some '0'
      · rw [if_neg hmsne, if_pos h0]
        exact Or.inl rfl
      · rw [if_neg hmsne, if_neg h0]
        by_cases hv64 :
            List.foldl (fun acc c => acc * 10 + (c.toNat - 48)) 0 ms < 2 ^ 64
        · rw [if_pos hv64, List.drop_length]
          exact Or.inr ⟨_, rfl⟩
        · rw [if_neg hv64]
          exact Or.inl rfl
    by_cases hz : d1 = '0'
    · simp [semver_parse, hnumtop0 hz]
    · rcases hms2 with h | ⟨v2, h⟩ <;>
        simp [semver_parse, hnumtop hz, h]
  have hclass : ∀ o : VersionOptions, classify_version (d1 :: d2 :: '.' :: ms) o =
      (match classify_calver (d1 :: d2 :: '.' :: ms) none o with
        | some info => info
        | none => semver_or_unknown (d1 :: d2 :: '.' :: ms)) := by
    intro o
    simp [classify_version, htrim, hsm, hplus, hminus]
  refine ⟨hy99, ?_, ?_⟩
  · rw [hclass opts, hcal]
    simp [semver_or_unknown, hsv]
  · rw [hclass opts', hcal']

/-- C7, witness: `"26.01"` is unknown without the flag and
`YY.MM`-calver with year 2026, month 1, with the flag. -/
theorem C7_yy_calver_witness :
    (classify_version (str "26.01")
      ⟨false, 2000, 2199⟩).version_format = str "unknown" ∧
    classify_version (str "26.01") ⟨true, 2000, 2199⟩ =
      { raw := str "26.01", version_format := str "calver",
        calver_scheme := some (str "YY.MM"),
        calver_parts := some
          { year := 2026, month := 1, day := none, micro := none },
        modifier := none, semver_parts := none } := by
  have h := C7_yy_calver '2' '6' ['0', '1'] 1 26
    ⟨false, 2000, 2199⟩ ⟨true, 2000, 2199⟩
    (by decide) (by decide) (by decide) (by decide)
    (by rfl) (by decide) (by decide) (by rfl) rfl rfl
  exact ⟨h.2.1, h.2.2⟩

theorem findSub_some_isPre (pat : Str) :
    ∀ (s : Str) (j : Nat), findSub pat s = some j →
      isPreOf pat (s.drop j) = true := by
  intro s
  induction s with
  | nil =>
    intro j h
    rw [findSub] at h
    by_cases hp : pat = []
    · subst hp
      simp at h
      subst h
      rfl
    · rw [if_neg hp] at h
      cases h
  | cons c rest ih =>
    intro j h
    rw [findSub] at h
    by_cases hp : isPreOf pat (c :: rest) = true
    · rw [if_pos hp] at h
      have : j = 0 := by
        have := Option.some.inj h
        omega
      subst this
      simpa using hp
    · rw [if_neg hp] at h
      rcases hj : findSub pat rest with _ | j'
      · rw [hj] at h
        cases h
      · rw [hj] at h
        simp at h
        have hj1 : j = j' + 1 := by omega
        subst hj1
        simpa using ih j' hj

theorem isPreOf_cons_head (a : Char) (p s : Str)
    (h : isPreOf (a :: p) s = true) : s.head? = some a := by
  cases s with
  | nil => cases h
  | cons b t =>
    rw [isPreOf] at h
    by_cases hab : a = b
    · subst hab
      rfl
    · rw [if_neg hab] at h
      cases h

theorem takeWhile_take_of_stop (p : Char → Bool) :
    ∀ (j : Nat) (l : Str) (x : Char),
      (l.drop j).head? = some x → p x = false →
      (l.take j).takeWhile p = l.takeWhile p := by
  intro j
  induction j with
  | zero =>
    intro l x hx hpx
    cases l with
    | nil => cases hx
    | cons a t =>
      simp at hx
      subst hx
      simp [List.takeWhile, hpx]
  | succ j ih =>
    intro l x hx hpx
    cases l with
    | nil => rfl
    | cons a t =>
      simp only [List.take_succ_cons, List.drop_succ_cons] at *
      by_cases hpa : p a = true
      · simp [List.takeWhile, hpa, ih t x hx hpx]
      · simp [List.takeWhile, Bool.eq_false_iff.mpr hpa]

/-- C8: the sample CI badge line parses to label `CI`, the image and link
URLs as written, kind `github_actions` and id `ci:ci.yaml`; in general
every absolute image URL containing both `/actions/workflows/` and
`/badge.svg` is classified as `github_actions` with id `ci:<segment>`,
the segment being the text between `/actions/workflows/` and the next
`/`. -/
theorem C8_github_actions :
    parse_badge_line (str "[![CI](https://github.com/O/R/actions/workflows/ci.yaml/badge.svg)](https://github.com/O/R/actions/workflows/ci.yaml)") =
      { id := str "ci:ci.yaml", kind := str "github_actions",
        label := str "CI",
        image := str "https://github.com/O/R/actions/workflows/ci.yaml/badge.svg",
        link := some (str "https://github.com/O/R/actions/workflows/ci.yaml"),
        source := str "readme",
        meta := some (BadgeMeta.workflowFile (str "ci.yaml")),
        raw := str "[![CI](https://github.com/O/R/actions/workflows/ci.yaml/badge.svg)](https://github.com/O/R/actions/workflows/ci.yaml)" } ∧
    ∀ image raw,
      is_http_url (trimChars image) = true →
      containsSub (str "/actions/workflows/") (trimChars image) = true →
      containsSub (str "/badge.svg") (trimChars image) = true →
      (infer_kind image raw).1 = str "github_actions" ∧
      (infer_kind image raw).2.1 =
        str "ci:" ++ workflowSegSpec (trimChars image) := by
  constructor
  · rfl
  · intro image raw hhttp hcont hbadge
    obtain ⟨i, hi⟩ : ∃ i,
        findSub (str "/actions/workflows/") (trimChars image) = some i := by
      unfold containsSub at hcont
      exact Option.isSome_iff_exists.mp hcont
    have key : ((splitNth1 (str "/actions/workflows/")
          (trimChars image)).map (splitFirst '/')) =
        some (workflowSegSpec (trimChars image)) := by
      simp only [splitNth1, hi]
      rcases hrest : findSub (str "/actions/workflows/")
          ((trimChars image).drop
            (i + (str "/actions/workflows/").length)) with _ | j
      · simp [workflowSegSpec, afterFirstSub, hi, splitFirst]
      · have hpre := findSub_some_isPre (str "/actions/workflows/") _ j hrest
        have hhead := isPreOf_cons_head '/' (str "actions/workflows/") _
          (by exact hpre)
        have htk := takeWhile_take_of_stop (fun c => ¬ (c = '/')) j _ '/'
          hhead (by simp)
        simp only [decide_not] at htk
        simp [workflowSegSpec, afterFirstSub, hi, splitFirst, htk]
    constructor
    · unfold infer_kind
      dsimp only
      rw [if_neg (not_not_intro hhttp), if_pos ⟨hcont, hbadge⟩, key]
    · unfold infer_kind
      dsimp only
      rw [if_neg (not_not_intro hhttp), if_pos ⟨hcont, hbadge⟩, key]

/-- C8, witness: the general rule applied to a concrete workflow badge
URL. -/
theorem C8_github_actions_witness :
    (infer_kind (str "https://x/actions/workflows/w.yml/badge.svg")
      (str "r")).1 = str "github_actions" ∧
    (infer_kind (str "https://x/actions/workflows/w.yml/badge.svg")
      (str "r")).2.1 =
      str "ci:" ++ workflowSegSpec
        (trimChars (str "https://x/actions/workflows/w.yml/badge.svg")) := by
  exact C8_github_actions.2
    (str "https://x/actions/workflows/w.yml/badge.svg") (str "r")
    (by rfl) (by rfl) (by rfl)

/-- C9: the strict badge parser is total — it returns a record carrying
the raw line for every input — and any line whose extracted image URL is
not an absolute `http(s)://` URL (in particular the shape-matching
`"![local](./badge.svg)"`), as well as any line matching no shape at all,
yields kind `unknown` and id `"unknown:" ++ hash_line line`, a fixed
deterministic function of the exact raw line. -/
theorem C9_unknown_badge :
    (∀ line, (parse_badge_line line).raw = line) ∧
    (∀ line label image link,
      parse_linked_image line = some (label, image, link) →
      is_http_url (trimChars image) = false →
      (parse_badge_line line).kind = str "unknown" ∧
      (parse_badge_line line).id = str "unknown:" ++ hash_line line) ∧
    (∀ line label image,
      parse_linked_image line = none →
      parse_image line = some (label, image) →
      is_http_url (trimChars image) = false →
      (parse_badge_line line).kind = str "unknown" ∧
      (parse_badge_line line).id = str "unknown:" ++ hash_line line) ∧
    (∀ line,
      parse_linked_image line = none →
      parse_image line = none →
      (parse_badge_line line).kind = str "unknown" ∧
      (parse_badge_line line).id = str "unknown:" ++ hash_line line) ∧
    (parse_badge_line (str "![local](./badge.svg)")).kind = str "unknown" ∧
    (parse_badge_line (str "![local](./badge.svg)")).id =
      str "unknown:" ++ hash_line (str "![local](./badge.svg)") := by
  refine ⟨?_, ?_, ?_, ?_, by rfl, by rfl⟩
  · intro line
    unfold parse_badge_line
    rcases h1 : parse_linked_image line with _ | ⟨label, image, link⟩
    · rcases h2 : parse_image line with _ | ⟨label, image⟩
      · rfl
      · rfl
    · rfl
  · intro line label image link h1 hurl
    unfold parse_badge_line
    rw [h1]
    unfold build_badge infer_kind
    dsimp only
    rw [if_pos (by simp [hurl])]
    exact ⟨rfl, rfl⟩
  · intro line label image h1 h2 hurl
    unfold parse_badge_line
    rw [h1, h2]
    unfold build_badge infer_kind
    dsimp only
    rw [if_pos (by simp [hurl])]
    exact ⟨rfl, rfl⟩
  · intro line h1 h2
    unfold parse_badge_line
    rw [h1, h2]
    exact ⟨rfl, rfl⟩

/-- C9, witness: a bare-image line with a relative URL. -/
theorem C9_unknown_badge_witness :
    (parse_badge_line (str "![x](foo.svg)")).kind = str "unknown" ∧
    (parse_badge_line (str "![x](foo.svg)")).id =
      str "unknown:" ++ hash_line (str "![x](foo.svg)") :=
  C9_unknown_badge.2.2.1 (str "![x](foo.svg)") (str "x") (str "foo.svg")
    (by rfl) (by rfl) (by rfl)

theorem fenceOddAt_zero (ls : List Str) : fenceOddAt ls 0 = false := by
  simp [fenceOddAt]

theorem fenceOddAt_succ (l : Str) (rest : List Str) (j : Nat) :
    fenceOddAt (l :: rest) (j + 1) =
      xor (is_code_fence l) (fenceOddAt rest j) := by
  unfold fenceOddAt
  rw [List.take_succ_cons, List.countP_cons]
  by_cases hp : is_code_fence l = true
  · simp only [hp, if_true, Bool.true_xor]
    generalize (List.take j rest).countP is_code_fence = c
    by_cases hq : c % 2 = 1
    · have h2 : ¬ ((c + 1) % 2 = 1) := by omega
      simp [h2, hq]
    · have h2 : (c + 1) % 2 = 1 := by omega
      simp [h2, hq]
  · have hp' : is_code_fence l = false := by
      exact Bool.not_eq_true _ |>.mp hp
    simp [hp']

theorem collectGo_bound :
    ∀ (ls : List Str) (idx0 : Nat) (fence : Bool) (x : Nat),
      (x ∈ (collectGo ls idx0 fence).1 ∨ x ∈ (collectGo ls idx0 fence).2) →
      idx0 ≤ x := by
  intro ls
  induction ls with
  | nil =>
    intro idx0 fence x hx
    rcases hx with hx | hx <;> cases hx
  | cons l rest ih =>
    intro idx0 fence x hx
    rw [collectGo] at hx
    by_cases hf : is_code_fence l = true
    · rw [if_pos hf] at hx
      have := ih (idx0 + 1) (!fence) x hx
      omega
    · rw [if_neg hf] at hx
      by_cases hin : fence = true
      · rw [if_pos hin] at hx
        have := ih (idx0 + 1) fence x hx
        omega
      · rw [if_neg hin] at hx
        dsimp only at hx
        rcases hx with hx | hx
        · by_cases hb : l = bdg_begin
          · rw [if_pos hb] at hx
            rcases List.mem_cons.mp hx with rfl | hx
            · omega
            · have := ih (idx0 + 1) fence x (Or.inl hx)
              omega
          · rw [if_neg hb] at hx
            have := ih (idx0 + 1) fence x (Or.inl hx)
            omega
        · by_cases hb : l = bdg_end
          · rw [if_pos hb] at hx
            rcases List.mem_cons.mp hx with rfl | hx
            · omega
            · have := ih (idx0 + 1) fence x (Or.inr hx)
              omega
          · rw [if_neg hb] at hx
            have := ih (idx0 + 1) fence x (Or.inr hx)
            omega

theorem collectGo_fenced :
    ∀ (ls : List Str) (idx0 : Nat) (fence : Bool) (i : Nat),
      i < ls.length → xor fence (fenceOddAt ls i) = true →
      ¬ (idx0 + i) ∈ (collectGo ls idx0 fence).1 ∧
      ¬ (idx0 + i) ∈ (collectGo ls idx0 fence).2 := by
  intro ls
  induction ls with
  | nil =>
    intro idx0 fence i hi
    cases hi
  | cons l rest ih =>
    intro idx0 fence i hi hstate
    cases i with
    | zero =>
      rw [fenceOddAt_zero] at hstate
      simp only [Bool.xor_false] at hstate
      rw [collectGo]
      by_cases hf : is_code_fence l = true
      · rw [if_pos hf]
        constructor <;> intro hx <;>
          have := collectGo_bound rest (idx0 + 1) (!fence) (idx0 + 0)
            (by first | exact Or.inl hx | exact Or.inr hx) <;> omega
      · rw [if_neg hf, if_pos hstate]
        constructor <;> intro hx <;>
          have := collectGo_bound rest (idx0 + 1) fence (idx0 + 0)
            (by first | exact Or.inl hx | exact Or.inr hx) <;> omega
    | succ j =>
      rw [fenceOddAt_succ] at hstate
      rw [collectGo]
      by_cases hf : is_code_fence l = true
      · rw [if_pos hf]
        have hstate' : xor (!fence) (fenceOddAt rest j) = true := by
          rw [hf] at hstate
          cases fence <;> cases hodd : fenceOddAt rest j <;>
            rw [hodd] at hstate <;> simp_all
        have := ih (idx0 + 1) (!fence) j (by simpa using hi) hstate'
        constructor <;> intro hx <;>
          [exact this.1 (by have h0 : idx0 + (j + 1) = idx0 + 1 + j := by omega
                            rw [h0] at hx; exact hx);
           exact this.2 (by have h0 : idx0 + (j + 1) = idx0 + 1 + j := by omega
                            rw [h0] at hx; exact hx)]
      · have hf' : is_code_fence l = false := Bool.not_eq_true _ |>.mp hf
        have hstate' : xor fence (fenceOddAt rest j) = true := by
          rw [hf'] at hstate
          simpa using hstate
        rw [if_neg hf]
        by_cases hin : fence = true
        · rw [if_pos hin]
          have := ih (idx0 + 1) fence j (by simpa using hi) hstate'
          constructor <;> intro hx <;>
            [exact this.1 (by have h0 : idx0 + (j + 1) = idx0 + 1 + j := by omega
                              rw [h0] at hx; exact hx);
             exact this.2 (by have h0 : idx0 + (j + 1) = idx0 + 1 + j := by omega
                              rw [h0] at hx; exact hx)]
        · rw [if_neg hin]
          dsimp only
          have := ih (idx0 + 1) fence j (by simpa using hi) hstate'
          have hne : ¬ (idx0 + (j + 1)) = idx0 := by omega
          have h0 : idx0 + (j + 1) = idx0 + 1 + j := by omega
          constructor
          · intro hx
            by_cases hb : l = bdg_begin
            · rw [if_pos hb] at hx
              rcases List.mem_cons.mp hx with he | hx
              · exact hne he
              · exact this.1 (by rw [h0] at hx; exact hx)
            · rw [if_neg hb] at hx
              exact this.1 (by rw [h0] at hx; exact hx)
          · intro hx
            by_cases hb : l = bdg_end
            · rw [if_pos hb] at hx
              rcases List.mem_cons.mp hx with he | hx
              · exact hne he
              · exact this.2 (by rw [h0] at hx; exact hx)
            · rw [if_neg hb] at hx
              exact this.2 (by rw [h0] at hx; exact hx)

theorem removeGo_keeps :
    ∀ (ls : List Str) (fence : Bool) (idSet kindSet : List Str) (i : Nat)
      (h : i < ls.length),
      xor fence (fenceOddAt ls i) = true →
      ls.get ⟨i, h⟩ ∈ (removeGo idSet kindSet ls fence).remaining := by
  intro ls
  induction ls with
  | nil =>
    intro fence idSet kindSet i h
    cases h
  | cons l rest ih =>
    intro fence idSet kindSet i h hstate
    cases i with
    | zero =>
      rw [fenceOddAt_zero] at hstate
      simp only [Bool.xor_false] at hstate
      rw [removeGo]
      by_cases hf : is_code_fence l = true
      · rw [if_pos hf]
        simp
      · rw [if_neg hf, if_pos hstate]
        simp
    | succ j =>
      rw [fenceOddAt_succ] at hstate
      rw [removeGo]
      by_cases hf : is_code_fence l = true
      · rw [if_pos hf]
        have hstate' : xor (!fence) (fenceOddAt rest j) = true := by
          rw [hf] at hstate
          cases fence <;> cases hodd : fenceOddAt rest j <;>
            rw [hodd] at hstate <;> simp_all
        have := ih (!fence) idSet kindSet j (by simpa using h) hstate'
        simp only [List.get_cons_succ]
        exact List.mem_cons_of_mem l this
      · have hf' : is_code_fence l = false := Bool.not_eq_true _ |>.mp hf
        have hstate' : xor fence (fenceOddAt rest j) = true := by
          rw [hf'] at hstate
          simpa using hstate
        rw [if_neg hf]
        by_cases hin : fence = true
        · rw [if_pos hin]
          have := ih fence idSet kindSet j (by simpa using h) hstate'
          simp only [List.get_cons_succ]
          exact List.mem_cons_of_mem l this
        · rw [if_neg hin]
          have := ih fence idSet kindSet j (by simpa using h) hstate'
          simp only [List.get_cons_succ]
          split
          · exact this
          · exact List.mem_cons_of_mem l this

theorem removeGo_sublist :
    ∀ (ls : List Str) (fence : Bool) (idSet kindSet : List Str),
      ((removeGo idSet kindSet ls fence).remaining).Sublist ls := by
  intro ls
  induction ls with
  | nil =>
    intro fence idSet kindSet
    rw [removeGo]
  | cons l rest ih =>
    intro fence idSet kindSet
    rw [removeGo]
    by_cases hf : is_code_fence l = true
    · rw [if_pos hf]
      exact List.Sublist.cons₂ l (ih (!fence) idSet kindSet)
    · rw [if_neg hf]
      by_cases hin : fence = true
      · rw [if_pos hin]
        exact List.Sublist.cons₂ l (ih fence idSet kindSet)
      · rw [if_neg hin]
        dsimp only
        split
        · exact List.Sublist.cons l (ih fence idSet kindSet)
        · exact List.Sublist.cons₂ l (ih fence idSet kindSet)

/-- C4: fence immunity.  A line in an odd fence-parity position (inside an
open fenced region) is never recorded as a begin or end sentinel by the
marker scan — hence never counted by `marker_count`, which is the length
of the begin-index list, and invisible to every block operation — and
during removal by id/kind such block lines are never matched or removed:
they always appear in `remaining`, which is an order-preserving sublist
of the block lines. -/
theorem C4_fence_immunity :
    (∀ (lines : List Str) (i : Nat), i < lines.length →
      fenceOddAt lines i = true →
      ¬ i ∈ (collect_marker_indices lines).1 ∧
      ¬ i ∈ (collect_marker_indices lines).2) ∧
    (∀ content, marker_count content =
      ((collect_marker_indices (split_lines content
        (detect_newline content).1)).1).length) ∧
    (∀ (ids kinds blockLines : List Str) (i : Nat) (h : i < blockLines.length),
      fenceOddAt blockLines i = true →
      blockLines.get ⟨i, h⟩ ∈
        (removeGo ids kinds blockLines false).remaining) ∧
    (∀ ids kinds blockLines,
      ((removeGo ids kinds blockLines false).remaining).Sublist blockLines) ∧
    (∀ content ids kinds strict o blockLines,
      remove_block_lines_by_id_kind content ids kinds strict = .ok o →
      extract_marker_block_lines content = .ok blockLines →
      ∀ (i : Nat) (h : i < blockLines.length), fenceOddAt blockLines i = true →
        blockLines.get ⟨i, h⟩ ∈ o.remaining) := by
  refine ⟨?_, ?_, ?_, ?_, ?_⟩
  · intro lines i hi hodd
    have := collectGo_fenced lines 0 false i hi (by simpa using hodd)
    rw [Nat.zero_add] at this
    exact this
  · intro content
    rfl
  · intro ids kinds blockLines i h hodd
    exact removeGo_keeps blockLines false ids kinds i h (by simpa using hodd)
  · intro ids kinds blockLines
    exact removeGo_sublist blockLines false ids kinds
  · intro content ids kinds strict o blockLines hrm hex i h hodd
    unfold remove_block_lines_by_id_kind at hrm
    rw [hex] at hrm
    dsimp only at hrm
    split at hrm
    · cases hrm
    · have ho := Except.ok.inj hrm
      have hmem := removeGo_keeps blockLines false (ids.map trimChars)
        (kinds.map trimChars) i h (by simpa using hodd)
      rw [← ho]
      exact hmem

/-- C4, witness: a sentinel between paired fences is not collected, and a
fenced badge line inside the block is kept by removal. -/
theorem C4_fence_immunity_witness :
    (¬ 1 ∈ (collect_marker_indices
      [str "```", bdg_begin, str "```", bdg_begin, bdg_end]).1) ∧
    str "![a](https://img.shields.io/crates/v/foo.svg)" ∈
      (removeGo [] [str "crates_version"]
        [str "```", str "![a](https://img.shields.io/crates/v/foo.svg)",
          str "```"] false).remaining := by
  constructor
  · exact (C4_fence_immunity.1
      [str "```", bdg_begin, str "```", bdg_begin, bdg_end] 1
      (by decide) (by rfl)).1
  · exact C4_fence_immunity.2.2.1 [] [str "crates_version"]
      [str "```", str "![a](https://img.shields.io/crates/v/foo.svg)",
        str "```"] 1 (by decide) (by rfl)

theorem findHeadingIdx_eq_spec :
    ∀ (suf pre : List Str),
      findHeadingIdx suf (fenceOddAt (pre ++ suf) pre.length) pre.length =
        (List.range' pre.length suf.length).find? (headingP (pre ++ suf)) := by
  intro suf
  induction suf with
  | nil =>
    intro pre
    rfl
  | cons l suf ih =>
    intro pre
    have htake0 : List.take pre.length (pre ++ l :: suf) = pre :=
      List.take_left pre (l :: suf)
    have htake1 : List.take (pre.length + 1) (pre ++ l :: suf) = pre ++ [l] := by
      rw [List.take_append 1]
      rfl
    have hget : (pre ++ l :: suf).getD pre.length [] = l := by
      rw [List.getD_eq_getElem?_getD]
      rw [List.getElem?_append_right (Nat.le_refl _)]
      simp
    have hfo_succ : fenceOddAt (pre ++ l :: suf) (pre.length + 1) =
        xor (is_code_fence l) (fenceOddAt (pre ++ l :: suf) pre.length) := by
      unfold fenceOddAt
      rw [htake0, htake1, List.countP_append]
      by_cases hp : is_code_fence l = true
      · simp only [List.countP_cons, List.countP_nil, hp, if_true,
          Bool.true_xor]
        generalize pre.countP is_code_fence = c
        by_cases hq : c % 2 = 1
        · have h2 : ¬ ((c + (0 + 1)) % 2 = 1) := by omega
          simp [h2, hq]
        · have h2 : (c + (0 + 1)) % 2 = 1 := by omega
          simp [h2, hq]
      · have hp' : is_code_fence l = false := Bool.not_eq_true _ |>.mp hp
        simp [List.countP_cons, hp']
    have hpre' : (pre ++ [l]) ++ suf = pre ++ l :: suf := by
      simp
    have hpre'len : (pre ++ [l]).length = pre.length + 1 := by
      simp
    have ihl := ih (pre ++ [l])
    rw [hpre', hpre'len] at ihl
    rw [findHeadingIdx]
    simp only [List.length_cons]
    rw [List.range'_succ pre.length suf.length 1]
    rw [List.find?_cons]
    have hP : headingP (pre ++ l :: suf) pre.length =
        (!(fenceOddAt (pre ++ l :: suf) pre.length) && !(is_code_fence l) &&
          isPreOf (str "# ") l) := by
      unfold headingP
      rw [hget]
    by_cases hcf : is_code_fence l = true
    · rw [if_pos hcf]
      have hstate : (!(fenceOddAt (pre ++ l :: suf) pre.length)) =
          fenceOddAt (pre ++ l :: suf) (pre.length + 1) := by
        rw [hfo_succ, hcf]
        cases fenceOddAt (pre ++ l :: suf) pre.length <;> rfl
      rw [hstate, ihl]
      have hPn : headingP (pre ++ l :: suf) pre.length = false := by
        rw [hP, hcf]
        simp
      rw [hPn]
    · have hcf' : is_code_fence l = false := Bool.not_eq_true _ |>.mp hcf
      rw [if_neg hcf]
      have hstate : fenceOddAt (pre ++ l :: suf) (pre.length + 1) =
          fenceOddAt (pre ++ l :: suf) pre.length := by
        rw [hfo_succ, hcf']
        exact Bool.false_xor _
      by_cases hf : fenceOddAt (pre ++ l :: suf) pre.length = true
      · rw [if_pos hf]
        rw [hstate.symm, ihl]
        have hPn : headingP (pre ++ l :: suf) pre.length = false := by
          rw [hP, hf]
          simp
        rw [hPn]
      · rw [if_neg hf]
        have hf' : fenceOddAt (pre ++ l :: suf) pre.length = false :=
          Bool.not_eq_true _ |>.mp hf
        by_cases hh : isPreOf (str "# ") l = true
        · rw [if_pos hh]
          have hPn : headingP (pre ++ l :: suf) pre.length = true := by
            rw [hP, hf', hcf', hh]
            rfl
          rw [hPn]
        · rw [if_neg hh]
          have hh' : isPreOf (str "# ") l = false :=
            Bool.not_eq_true _ |>.mp hh
          have hPn : headingP (pre ++ l :: suf) pre.length = false := by
            rw [hP, hh']
            simp
          rw [hPn]
          rw [hstate.symm, ihl]

theorem ensureInsertLines_eq_spec (lines : List Str) :
    ensureInsertLines lines = specInsertPair lines := by
  unfold ensureInsertLines specInsertPair specFirstHeading
  have h := findHeadingIdx_eq_spec lines []
  simp only [List.nil_append, List.length_nil] at h
  rw [fenceOddAt_zero] at h
  rw [h, List.range_eq_range' lines.length]

theorem mem_of_getLast?_eq {α : Type} (l : List α) (a : α)
    (h : l.getLast? = some a) : a ∈ l := by
  rw [← List.head?_reverse] at h
  have := List.mem_of_mem_head? h
  simpa using this

theorem isPreOf_iff (p : Str) : ∀ s : Str, isPreOf p s = true ↔ p <+: s := by
  induction p with
  | nil =>
    intro s
    simp [isPreOf]
  | cons a p ih =>
    intro s
    cases s with
    | nil =>
      simp [isPreOf]
    | cons b t =>
      rw [isPreOf]
      by_cases hab : a = b
      · subst hab
        rw [if_pos rfl]
        rw [ih t]
        constructor
        · intro h
          rcases h with ⟨q, hq⟩
          exact ⟨q, by simp [hq]⟩
        · intro h
          rcases h with ⟨q, hq⟩
          simp at hq
          exact ⟨q, hq⟩
      · rw [if_neg hab]
        constructor
        · intro h
          cases h
        · intro h
          rcases h with ⟨q, hq⟩
          simp at hq
          exact absurd hq.1 hab

theorem endsWithSub_iff (p s : Str) :
    endsWithSub p s = true ↔ ∃ q, s = q ++ p := by
  unfold endsWithSub
  rw [isPreOf_iff]
  rw [List.reverse_prefix]
  constructor
  · intro h
    rcases h with ⟨q, hq⟩
    exact ⟨q, hq.symm⟩
  · intro h
    rcases h with ⟨q, hq⟩
    exact ⟨q, hq.symm⟩

theorem endsWithSub_single (a : Char) (s : Str) :
    endsWithSub [a] s = true ↔ s.getLast? = some a := by
  unfold endsWithSub
  rw [← List.head?_reverse]
  cases hs : s.reverse with
  | nil => simp [isPreOf]
  | cons b t =>
    simp only [isPreOf]
    by_cases hab : a = b
    · subst hab
      rw [if_pos rfl]
      simp [isPreOf]
    · rw [if_neg hab]
      simp
      exact fun h => absurd h.symm hab

theorem containsSub_cons (pat : Str) (a : Char) (s : Str) :
    containsSub pat (a :: s) = (isPreOf pat (a :: s) || containsSub pat s) := by
  unfold containsSub
  rw [findSub]
  by_cases h : isPreOf pat (a :: s) = true
  · rw [if_pos h, h]
    rfl
  · have h' : isPreOf pat (a :: s) = false := Bool.not_eq_true _ |>.mp h
    rw [if_neg h, h']
    cases findSub pat s <;> rfl

theorem containsSub_append_mid (a : Char) (p : Str) :
    ∀ (x b : Str), containsSub (a :: p) (x ++ ((a :: p) ++ b)) = true := by
  intro x
  induction x with
  | nil =>
    intro b
    rw [List.nil_append, List.cons_append, containsSub_cons]
    rw [show isPreOf (a :: p) (a :: (p ++ b)) = true from
      (isPreOf_iff (a :: p) _).mpr ⟨b, by simp⟩]
    rfl
  | cons x0 x ih =>
    intro b
    rw [List.cons_append, containsSub_cons, ih b]
    cases isPreOf (a :: p) (x ++ ((a :: p) ++ b)) <;> simp

theorem mem_of_containsSub (a : Char) (p : Str) :
    ∀ s : Str, containsSub (a :: p) s = true → a ∈ s := by
  intro s
  induction s with
  | nil =>
    intro h
    cases h
  | cons b t ih =>
    intro h
    rw [containsSub_cons] at h
    rcases (by simpa using h :
        isPreOf (a :: p) (b :: t) = true ∨ containsSub (a :: p) t = true)
      with h | h
    · have := isPreOf_cons_head a p _ h
      simp at this
      simp [this]
    · exact List.mem_cons_of_mem b (ih h)

theorem splitChar_ne_nil (sep : Char) : ∀ c : Str, ¬ splitChar sep c = [] := by
  intro c
  cases c with
  | nil => simp [splitChar]
  | cons a t =>
    rw [splitChar]
    by_cases h : a = sep
    · rw [if_pos h]
      simp
    · rw [if_neg h]
      cases hsp : splitChar sep t with
      | nil => simp
      | cons h0 t0 => simp

theorem mem_splitChar (sep : Char) :
    ∀ (c l : Str), l ∈ splitChar sep c → ∀ x ∈ l, x ∈ c := by
  intro c
  induction c with
  | nil =>
    intro l hl x hx
    simp [splitChar] at hl
    subst hl
    cases hx
  | cons a t ih =>
    intro l hl x hx
    rw [splitChar] at hl
    by_cases h : a = sep
    · rw [if_pos h] at hl
      rcases List.mem_cons.mp hl with rfl | hl
      · cases hx
      · exact List.mem_cons_of_mem a (ih l hl x hx)
    · rw [if_neg h] at hl
      cases hsp : splitChar sep t with
      | nil => exact absurd hsp (splitChar_ne_nil sep t)
      | cons h0 t0 =>
        rw [hsp] at hl
        rcases List.mem_cons.mp hl with rfl | hl
        · rcases List.mem_cons.mp hx with rfl | hx
          · exact List.mem_cons_self x t
          · exact List.mem_cons_of_mem a
              (ih h0 (by rw [hsp]; exact List.mem_cons_self h0 t0) x hx)
        · exact List.mem_cons_of_mem a
            (ih l (by rw [hsp]; exact List.mem_cons_of_mem h0 hl) x hx)

theorem sep_not_mem_splitChar (sep : Char) :
    ∀ (c l : Str), l ∈ splitChar sep c → ¬ sep ∈ l := by
  intro c
  induction c with
  | nil =>
    intro l hl
    simp [splitChar] at hl
    subst hl
    simp
  | cons a t ih =>
    intro l hl
    rw [splitChar] at hl
    by_cases h : a = sep
    · rw [if_pos h] at hl
      rcases List.mem_cons.mp hl with rfl | hl
      · simp
      · exact ih l hl
    · rw [if_neg h] at hl
      cases hsp : splitChar sep t with
      | nil => exact absurd hsp (splitChar_ne_nil sep t)
      | cons h0 t0 =>
        rw [hsp] at hl
        rcases List.mem_cons.mp hl with rfl | hl
        · intro hmem
          rcases List.mem_cons.mp hmem with he | hmem
          · exact h he.symm
          · exact ih h0 (by rw [hsp]; exact List.mem_cons_self h0 t0) hmem
        · exact ih l (by rw [hsp]; exact List.mem_cons_of_mem h0 hl)

theorem splitChar_getLast_of_not_end (sep : Char) :
    ∀ c : Str, ¬ c = [] → ¬ c.getLast? = some sep →
      ∃ s, (splitChar sep c).getLast? = some s ∧ ¬ s = [] := by
  intro c
  induction c with
  | nil =>
    intro hne
    exact absurd rfl hne
  | cons a t ih =>
    intro hne hlast
    rw [splitChar]
    cases ht : t with
    | nil =>
      subst ht
      have ha : ¬ a = sep := by
        intro he
        exact hlast (by simp [he])
      rw [if_neg ha]
      exact ⟨[a], by simp [splitChar], by simp⟩
    | cons b t0 =>
      have htne : ¬ t = [] := by
        rw [ht]
        simp
      have htlast : ¬ t.getLast? = some sep := by
        rw [ht] at hlast ⊢
        simpa using hlast
      obtain ⟨s, hs, hsne⟩ := ih htne htlast
      rw [← ht]
      by_cases h : a = sep
      · rw [if_pos h]
        cases hsp : splitChar sep t with
        | nil => exact absurd hsp (splitChar_ne_nil sep t)
        | cons h0 t1 =>
          rw [hsp] at hs
          exact ⟨s, by rw [List.getLast?_cons_cons]; exact hs, hsne⟩
      · rw [if_neg h]
        cases hsp : splitChar sep t with
        | nil => exact absurd hsp (splitChar_ne_nil sep t)
        | cons h0 t1 =>
          rw [hsp] at hs
          cases ht1 : t1 with
          | nil =>
            subst ht1
            exact ⟨a :: h0, by simp, by simp⟩
          | cons s0 t2 =>
            refine ⟨s, ?_, hsne⟩
            dsimp only
            rw [List.getLast?_cons_cons]
            rw [ht1, List.getLast?_cons_cons] at hs
            exact hs

theorem splitCRLF_ne_nil : ∀ c : Str, ¬ splitCRLF c = [] := by
  intro c
  induction c using splitCRLF.induct with
  | case1 => simp [splitCRLF]
  | case2 rest ih => simp [splitCRLF]
  | case3 c rest hg h0 t0 hx ih =>
    simp only [splitCRLF]
    rw [hx]
    simp
  | case4 c rest hg hx ih => exact absurd hx ih

theorem noBareCR_cr_head :
    ∀ rest : Str, noBareCR ('\r' :: rest) = true → ∃ r, rest = '\n' :: r := by
  intro rest h
  cases rest with
  | nil =>
    simp [noBareCR] at h
  | cons b r =>
    by_cases hb : b = '\n'
    · exact ⟨r, by rw [hb]⟩
    · simp [noBareCR, hb] at h

theorem noBareCR_tail :
    ∀ (a : Char) (rest : Str), noBareCR (a :: rest) = true →
      noBareCR rest = true := by
  intro a rest h
  by_cases ha : a = '\r'
  · subst ha
    obtain ⟨r, hr⟩ := noBareCR_cr_head rest h
    subst hr
    simp [noBareCR] at h ⊢
    exact h
  · simp [noBareCR, ha] at h
    exact h

theorem splitCRLF_no_cr :
    ∀ c : Str, noBareCR c = true →
      ∀ l ∈ splitCRLF c, ¬ '\r' ∈ l := by
  intro c
  induction c using splitCRLF.induct with
  | case1 =>
    intro hn l hl
    simp [splitCRLF] at hl
    subst hl
    simp
  | case2 rest ih =>
    intro hn l hl
    simp only [splitCRLF] at hl
    rcases List.mem_cons.mp hl with rfl | hl
    · simp
    · exact ih (by simpa [noBareCR] using hn) l hl
  | case3 c rest hg h0 t0 hx ih =>
    intro hn l hl
    have hc : ¬ c = '\r' := by
      intro he
      subst he
      obtain ⟨r, hr⟩ := noBareCR_cr_head rest hn
      exact hg r rfl hr
    have hnr : noBareCR rest = true := noBareCR_tail c rest hn
    simp only [splitCRLF] at hl
    rw [hx] at hl
    rcases List.mem_cons.mp hl with rfl | hl
    · intro hmem
      rcases List.mem_cons.mp hmem with he | hmem
      · exact hc he.symm
      · exact ih hnr h0 (by rw [hx]; exact List.mem_cons_self h0 t0) hmem
    · exact ih hnr l (by rw [hx]; exact List.mem_cons_of_mem h0 hl)
  | case4 c rest hg hx ih => exact absurd hx (splitCRLF_ne_nil rest)

theorem splitCRLF_getLast_of_not_end :
    ∀ c : Str, noBareCR c = true → ¬ endsWithSub crlf c = true →
      ¬ c = [] → ∃ s, (splitCRLF c).getLast? = some s ∧ ¬ s = [] := by
  intro c
  induction c using splitCRLF.induct with
  | case1 =>
    intro _ _ hne
    exact absurd rfl hne
  | case2 rest ih =>
    intro hn hend _
    by_cases hrest : rest = []
    · exfalso
      apply hend
      rw [hrest]
      rfl
    · have hnr : noBareCR rest = true := by simpa [noBareCR] using hn
      have hendr : ¬ endsWithSub crlf rest = true := by
        intro he
        apply hend
        rw [endsWithSub_iff] at he ⊢
        obtain ⟨q, hq⟩ := he
        exact ⟨'\r' :: '\n' :: q, by rw [hq]; rfl⟩
      obtain ⟨s, hs, hsne⟩ := ih hnr hendr hrest
      refine ⟨s, ?_, hsne⟩
      simp only [splitCRLF]
      cases hsp : splitCRLF rest with
      | nil => exact absurd hsp (splitCRLF_ne_nil rest)
      | cons h0 t0 =>
        rw [hsp] at hs
        rw [List.getLast?_cons_cons]
        exact hs
  | case3 c0 rest hg h0 t0 hx ih =>
    intro hn hend _
    simp only [splitCRLF]
    rw [hx]
    cases ht0 : t0 with
    | nil =>
      exact ⟨c0 :: h0, by simp, by simp⟩
    | cons s0 t2 =>
      have hrestne : ¬ rest = [] := by
        intro he
        rw [he] at hx
        simp [splitCRLF] at hx
        exact absurd hx.2.symm (by rw [ht0]; simp)
      have hnr : noBareCR rest = true := noBareCR_tail c0 rest hn
      have hendr : ¬ endsWithSub crlf rest = true := by
        intro he
        apply hend
        rw [endsWithSub_iff] at he ⊢
        obtain ⟨q, hq⟩ := he
        exact ⟨c0 :: q, by rw [hq]; rfl⟩
      obtain ⟨s, hs, hsne⟩ := ih hnr hendr hrestne
      rw [hx, ht0] at hs
      rw [List.getLast?_cons_cons] at hs
      refine ⟨s, ?_, hsne⟩
      dsimp only
      rw [List.getLast?_cons_cons]
      exact hs
  | case4 c0 rest hg hx ih => exact absurd hx (splitCRLF_ne_nil rest)

theorem no_cr_of_LF_mode :
    ∀ c : Str, noBareCR c = true → containsSub crlf c = false →
      ¬ '\r' ∈ c := by
  intro c
  induction c with
  | nil =>
    intro _ _ h
    cases h
  | cons a rest ih =>
    intro hn hc hmem
    rw [containsSub_cons] at hc
    have hc2 : isPreOf crlf (a :: rest) = false ∧
        containsSub crlf rest = false := by
      cases h1 : isPreOf crlf (a :: rest) <;>
        cases h2 : containsSub crlf rest <;>
        rw [h1, h2] at hc <;> simp_all
    rcases List.mem_cons.mp hmem with he | hmem
    · subst he
      obtain ⟨r, hr⟩ := noBareCR_cr_head rest hn
      subst hr
      have : isPreOf crlf ('\r' :: '\n' :: r) = true := by
        rw [show crlf = ['\r', '\n'] from rfl]
        simp [isPreOf]
      rw [this] at hc2
      cases hc2.1
    · exact ih (noBareCR_tail a rest hn) hc2.2 hmem

theorem mem_joinSep (sep : Str) :
    ∀ (ls : List Str) (x : Char), x ∈ joinSep sep ls →
      (∃ l ∈ ls, x ∈ l) ∨ x ∈ sep := by
  intro ls
  induction ls with
  | nil =>
    intro x hx
    cases hx
  | cons l rest ih =>
    intro x hx
    cases rest with
    | nil =>
      exact Or.inl ⟨l, by simp, by simpa [joinSep] using hx⟩
    | cons h tl =>
      simp only [joinSep] at hx
      rcases List.mem_append.mp hx with hx | hx
      · rcases List.mem_append.mp hx with hx | hx
        · exact Or.inl ⟨l, by simp, hx⟩
        · exact Or.inr hx
      · rcases ih x hx with ⟨l0, hl0, hxl0⟩ | hx
        · exact Or.inl ⟨l0, List.mem_cons_of_mem l hl0, hxl0⟩
        · exact Or.inr hx

theorem getLast?_joinSep (sep : Str) :
    ∀ (ls : List Str) (t : Str) (a : Char), ls.getLast? = some t →
      t.getLast? = some a → (joinSep sep ls).getLast? = some a := by
  intro ls
  induction ls with
  | nil =>
    intro t a h
    cases h
  | cons l rest ih =>
    intro t a hlast ha
    cases rest with
    | nil =>
      simp at hlast
      subst hlast
      simpa [joinSep] using ha
    | cons h tl =>
      rw [List.getLast?_cons_cons] at hlast
      have hj := ih t a hlast ha
      simp only [joinSep]
      rw [List.getLast?_append, List.getLast?_append, hj]
      rfl

theorem joinSep_decomp (sep : Str) :
    ∀ (ls : List Str) (t : Str), ls.getLast? = some t →
      ∃ u, joinSep sep ls = u ++ t ∧ (u = [] ∨ ∃ v, u = v ++ sep) := by
  intro ls
  induction ls with
  | nil =>
    intro t h
    cases h
  | cons l rest ih =>
    intro t hlast
    cases rest with
    | nil =>
      simp at hlast
      subst hlast
      exact ⟨[], by simp [joinSep], Or.inl rfl⟩
    | cons h tl =>
      rw [List.getLast?_cons_cons] at hlast
      obtain ⟨u, hu, hor⟩ := ih t hlast
      refine ⟨l ++ sep ++ u, ?_, ?_⟩
      · simp only [joinSep]
        rw [hu]
        simp
      · rcases hor with rfl | ⟨v, rfl⟩
        · exact Or.inr ⟨l, by simp⟩
        · exact Or.inr ⟨l ++ sep ++ v, by simp⟩

theorem mem_specInsertPair (ls : List Str) (l : Str)
    (h : l ∈ specInsertPair ls) :
    l = bdg_begin ∨ l = bdg_end ∨ l ∈ ls := by
  unfold specInsertPair at h
  cases hsp : specFirstHeading ls with
  | none =>
    rw [hsp] at h
    rcases List.mem_cons.mp h with rfl | h
    · exact Or.inl rfl
    · rcases List.mem_cons.mp h with rfl | h
      · exact Or.inr (Or.inl rfl)
      · exact Or.inr (Or.inr h)
  | some i =>
    rw [hsp] at h
    rcases List.mem_append.mp h with h | h
    · rcases List.mem_append.mp h with h | h
      · exact Or.inr (Or.inr (List.take_subset _ _ h))
      · rcases List.mem_cons.mp h with rfl | h
        · exact Or.inl rfl
        · rcases List.mem_cons.mp h with rfl | h
          · exact Or.inr (Or.inl rfl)
          · cases h
    · exact Or.inr (Or.inr (List.drop_subset _ _ h))

theorem length_specInsertPair (ls : List Str) :
    (specInsertPair ls).length = ls.length + 2 := by
  unfold specInsertPair
  cases hsp : specFirstHeading ls with
  | none => simp
  | some i =>
    have hi : i < ls.length := by
      have := List.mem_of_find?_eq_some hsp
      simpa using this
    simp [List.length_take, List.length_drop]
    omega

theorem getLast?_specInsertPair (ls : List Str) (hne : ¬ ls = []) :
    (specInsertPair ls).getLast? = ls.getLast? ∨
    (specInsertPair ls).getLast? = some bdg_end := by
  unfold specInsertPair
  cases hsp : specFirstHeading ls with
  | none =>
    left
    cases ls with
    | nil => exact absurd rfl hne
    | cons a t =>
      rw [List.getLast?_cons_cons, List.getLast?_cons_cons]
  | some i =>
    dsimp only
    cases hdrop : ls.drop (i + 1) with
    | nil =>
      right
      rw [List.append_nil, List.getLast?_append]
      rfl
    | cons d0 dt =>
      left
      obtain ⟨a, ha⟩ : ∃ a, (d0 :: dt).getLast? = some a := by
        cases hlast : (d0 :: dt).getLast? with
        | none =>
          exfalso
          rw [List.getLast?_eq_none_iff] at hlast
          cases hlast
        | some a => exact ⟨a, rfl⟩
      rw [List.getLast?_append, ha]
      have hlsl : ls.getLast? = some a := by
        conv_lhs => rw [← List.take_append_drop (i + 1) ls]
        rw [List.getLast?_append, hdrop, ha]
        rfl
      rw [hlsl]
      rfl

theorem two_le_exists_cons {α : Type} (l : List α) (h : 2 ≤ l.length) :
    ∃ x y t, l = x :: y :: t := by
  rcases l with _ | ⟨x, _ | ⟨y, t⟩⟩ <;> simp at h
  exact ⟨x, y, t, rfl⟩

theorem detect_preserved_crlf (c : Str) (hnb : noBareCR c = true)
    (hcr : containsSub crlf c = true) :
    detect_newline (join_lines (specInsertPair (splitCRLF c)) crlf
      (endsWithSub crlf c)) = (crlf, endsWithSub crlf c) := by
  have hcne : ¬ c = [] := by
    intro he
    rw [he] at hcr
    cases hcr
  obtain ⟨x, y, t, hxy⟩ := two_le_exists_cons (specInsertPair (splitCRLF c))
    (by rw [length_specInsertPair]; omega)
  have hcontains : ∀ T : Str,
      containsSub crlf (joinSep crlf (specInsertPair (splitCRLF c)) ++ T)
        = true := by
    intro T
    rw [hxy]
    simp only [joinSep]
    have hshape : (x ++ crlf ++ joinSep crlf (y :: t)) ++ T =
        x ++ (('\r' :: ['\n']) ++ (joinSep crlf (y :: t) ++ T)) := by
      simp [crlf]
    rw [hshape]
    exact containsSub_append_mid '\r' ['\n'] x _
  unfold join_lines
  cases htr : endsWithSub crlf c with
  | true =>
    rw [if_pos rfl]
    unfold detect_newline
    rw [if_pos (hcontains crlf)]
    have hok : endsWithSub crlf
        (joinSep crlf (specInsertPair (splitCRLF c)) ++ crlf) = true :=
      (endsWithSub_iff _ _).mpr ⟨_, rfl⟩
    rw [hok]
  | false =>
    rw [if_neg (by simp)]
    rw [List.append_nil]
    unfold detect_newline
    rw [if_pos (by have h0 := hcontains []; rwa [List.append_nil] at h0)]
    obtain ⟨s, hs, hsne⟩ := splitCRLF_getLast_of_not_end c hnb
      (by rw [htr]; simp) hcne
    have hnos : ¬ '\r' ∈ s :=
      splitCRLF_no_cr c hnb s (mem_of_getLast?_eq (splitCRLF c) s hs)
    obtain ⟨tL, htL, htLne, htLnor⟩ : ∃ tL,
        (specInsertPair (splitCRLF c)).getLast? = some tL ∧
        ¬ tL = [] ∧ ¬ '\r' ∈ tL := by
      rcases getLast?_specInsertPair (splitCRLF c) (splitCRLF_ne_nil c)
        with hLast | hLast
      · exact ⟨s, by rw [hLast]; exact hs, hsne, hnos⟩
      · exact ⟨bdg_end, hLast, by decide, by decide⟩
    obtain ⟨u, hu, hor⟩ := joinSep_decomp crlf _ tL htL
    have hend : ¬ endsWithSub crlf
        (joinSep crlf (specInsertPair (splitCRLF c))) = true := by
      intro he
      rw [endsWithSub_iff] at he
      obtain ⟨q, hq⟩ := he
      have heq : q ++ crlf = u ++ tL := by rw [← hq, hu]
      have hrev : '\n' :: '\r' :: q.reverse = tL.reverse ++ u.reverse := by
        have h2 := congrArg List.reverse heq
        simpa [crlf] using h2
      cases htLrev : tL.reverse with
      | nil => exact htLne (by simpa using htLrev)
      | cons b t2 =>
        cases t2 with
        | nil =>
          rw [htLrev] at hrev
          simp at hrev
          obtain ⟨hb, hurev⟩ := hrev
          rcases hor with rfl | ⟨v, rfl⟩
          · simp at hurev
          · rw [List.reverse_append] at hurev
            simp [crlf] at hurev
        | cons a t3 =>
          rw [htLrev] at hrev
          simp at hrev
          apply htLnor
          rw [← List.mem_reverse, htLrev]
          have ha : a = '\r' := hrev.2.1.symm
          rw [ha]
          simp
    rw [Bool.not_eq_true _ |>.mp hend]

theorem detect_preserved_lf (c : Str) (hnb : noBareCR c = true)
    (hcr : containsSub crlf c = false) (hcne : ¬ c = []) :
    detect_newline (join_lines (specInsertPair (splitChar '\n' c)) lf
      (endsWithSub lf c)) = (lf, endsWithSub lf c) := by
  have hnor : ¬ '\r' ∈ c := no_cr_of_LF_mode c hnb hcr
  have hout_nor : ∀ T : Str, T = [] ∨ T = lf →
      ¬ '\r' ∈ (joinSep lf (specInsertPair (splitChar '\n' c)) ++ T) := by
    intro T hT hmem
    rcases List.mem_append.mp hmem with hmem | hmem
    · rcases mem_joinSep lf _ '\r' hmem with ⟨l, hl, hxl⟩ | hmem
      · rcases mem_specInsertPair _ l hl with rfl | rfl | hl
        · exact absurd hxl (by decide)
        · exact absurd hxl (by decide)
        · exact hnor (mem_splitChar '\n' c l hl '\r' hxl)
      · exact absurd hmem (by decide)
    · rcases hT with rfl | rfl
      · cases hmem
      · exact absurd hmem (by decide)
  have hout_nocrlf : ∀ T : Str, T = [] ∨ T = lf →
      containsSub crlf (joinSep lf (specInsertPair (splitChar '\n' c)) ++ T)
        = false := by
    intro T hT
    cases hco : containsSub crlf
        (joinSep lf (specInsertPair (splitChar '\n' c)) ++ T) with
    | false => rfl
    | true =>
      exfalso
      exact hout_nor T hT
        (mem_of_containsSub '\r' ['\n'] _ (by rw [show ('\r' :: ['\n'] : Str) = crlf from rfl]; exact hco))
  unfold join_lines
  cases htr : endsWithSub lf c with
  | true =>
    rw [if_pos rfl]
    unfold detect_newline
    rw [if_neg (by rw [hout_nocrlf lf (Or.inr rfl)]; simp)]
    have hok : endsWithSub lf
        (joinSep lf (specInsertPair (splitChar '\n' c)) ++ lf) = true :=
      (endsWithSub_iff _ _).mpr ⟨_, rfl⟩
    rw [hok]
  | false =>
    rw [if_neg (by simp)]
    rw [List.append_nil]
    unfold detect_newline
    rw [if_neg (by
      have h0 := hout_nocrlf [] (Or.inl rfl)
      rw [List.append_nil] at h0
      rw [h0]
      simp)]
    have hclast : ¬ c.getLast? = some '\n' := by
      intro he
      have := (endsWithSub_single '\n' c).mpr he
      rw [show endsWithSub ['\n'] c = endsWithSub lf c from rfl, htr] at this
      cases this
    obtain ⟨s, hs, hsne⟩ := splitChar_getLast_of_not_end '\n' c hcne hclast
    have hnos : ¬ '\n' ∈ s :=
      sep_not_mem_splitChar '\n' c s (mem_of_getLast?_eq _ s hs)
    obtain ⟨tL, htL, htLne, htLnon⟩ : ∃ tL,
        (specInsertPair (splitChar '\n' c)).getLast? = some tL ∧
        ¬ tL = [] ∧ ¬ '\n' ∈ tL := by
      rcases getLast?_specInsertPair (splitChar '\n' c)
          (splitChar_ne_nil '\n' c) with hLast | hLast
      · exact ⟨s, by rw [hLast]; exact hs, hsne, hnos⟩
      · exact ⟨bdg_end, hLast, by decide, by decide⟩
    obtain ⟨a, ha⟩ : ∃ a, tL.getLast? = some a := by
      cases hla : tL.getLast? with
      | none =>
        exfalso
        rw [List.getLast?_eq_none_iff] at hla
        exact htLne hla
      | some a => exact ⟨a, rfl⟩
    have hane : ¬ a = '\n' := by
      intro he
      exact htLnon (by rw [← he]; exact mem_of_getLast?_eq tL a ha)
    have hjoin := getLast?_joinSep lf _ tL a htL ha
    have hend : endsWithSub lf
        (joinSep lf (specInsertPair (splitChar '\n' c))) = false := by
      cases hco : endsWithSub lf
          (joinSep lf (specInsertPair (splitChar '\n' c))) with
      | false => rfl
      | true =>
        exfalso
        have := (endsWithSub_single '\n' _).mp hco
        rw [hjoin] at this
        exact hane (Option.some.inj this)
    rw [hend]

/-- C5, counterexample: `ensure_marker_block` does not always preserve
the detected newline style.  `"# T\r"` is detected as LF with no trailing
newline, but inserting the sentinel pair after the heading produces
`"# T\r\n…"`, which is detected as CRLF. -/
theorem C5_counterexample :
    detect_newline (str "# T\r") = (lf, false) ∧
    ensure_marker_block (str "# T\r") =
      .ok (str "# T\r\n<!-- bdg:begin -->\n<!-- bdg:end -->") ∧
    detect_newline (str "# T\r\n<!-- bdg:begin -->\n<!-- bdg:end -->") =
      (crlf, false) := by
  refine ⟨by rfl, by rfl, by rfl⟩

/-- C5, amended: for every document with no bare carriage return (every
`\r` is part of a `\r\n` pair) that does not already have exactly one
begin and one end sentinel outside fences, `ensure_marker_block` inserts
the sentinel pair immediately after the first non-fenced line starting
with `"# "` — at the very top when there is none (`specInsertPair`) —
rejoining with the original newline style and trailing-newline flag, and
the edited document's detected newline style and trailing-newline flag
are unchanged; in particular `"# Title\nIntro"` maps to
`"# Title\n<!-- bdg:begin -->\n<!-- bdg:end -->\nIntro"`. -/
theorem C5_amended :
    (∀ content : Str, noBareCR content = true →
      ¬ ((collect_marker_indices (split_lines content
            (detect_newline content).1)).1.length = 1 ∧
          (collect_marker_indices (split_lines content
            (detect_newline content).1)).2.length = 1) →
      ensure_marker_block content = .ok
        (join_lines (specInsertPair (split_lines content
            (detect_newline content).1))
          (detect_newline content).1 (detect_newline content).2) ∧
      detect_newline (join_lines (specInsertPair (split_lines content
            (detect_newline content).1))
          (detect_newline content).1 (detect_newline content).2) =
        detect_newline content) ∧
    ensure_marker_block (str "# Title\nIntro") =
      .ok (str "# Title\n<!-- bdg:begin -->\n<!-- bdg:end -->\nIntro") := by
  constructor
  · intro c hnb hnot
    constructor
    · simp [ensure_marker_block, hnot, ensureInsertLines_eq_spec]
    · by_cases hcr : containsSub crlf c = true
      · have hd : detect_newline c = (crlf, endsWithSub crlf c) := by
          unfold detect_newline
          rw [if_pos hcr]
        have hcne : ¬ c = [] := by
          intro he
          rw [he] at hcr
          cases hcr
        have hsl : split_lines c (detect_newline c).1 = splitCRLF c := by
          rw [hd]
          unfold split_lines
          rw [if_neg hcne, if_pos rfl]
        rw [hsl, hd]
        exact detect_preserved_crlf c hnb hcr
      · have hcr' : containsSub crlf c = false := Bool.not_eq_true _ |>.mp hcr
        have hd : detect_newline c = (lf, endsWithSub lf c) := by
          unfold detect_newline
          rw [if_neg (by rw [hcr']; simp)]
        by_cases hcne : c = []
        · subst hcne
          rfl
        · have hsl0 : split_lines c lf = splitChar '\n' c := by
            unfold split_lines
            rw [if_neg hcne, if_neg (by decide)]
          have hsl : split_lines c (detect_newline c).1 =
              splitChar '\n' c := by
            rw [hd]
            exact hsl0
          rw [hsl, hd]
          exact detect_preserved_lf c hnb hcr' hcne
  · rfl

/-- C5, witness: the amended theorem applied to `"Intro"`, a document
with no heading and no sentinels. -/
theorem C5_amended_witness :
    ensure_marker_block (str "Intro") = .ok
      (join_lines (specInsertPair (split_lines (str "Intro")
          (detect_newline (str "Intro")).1))
        (detect_newline (str "Intro")).1 (detect_newline (str "Intro")).2) ∧
    detect_newline (join_lines (specInsertPair (split_lines (str "Intro")
          (detect_newline (str "Intro")).1))
        (detect_newline (str "Intro")).1 (detect_newline (str "Intro")).2) =
      detect_newline (str "Intro") :=
  C5_amended.1 (str "Intro") (by rfl) (by decide)
